import Mathlib

/-!
# audioclipper

A shallow embedding of `main.go` of `ajmadsen/audioclipper` and the properties of its
timestamp parser, its manifest parser, its name sanitizer, its search for a free output
name and the commands it sends to its workers.

* A Go `string` is a sequence of characters (`GoString`).
* `log.Fatalf` / `log.Fatalln` end the process; a function that can reach one
  returns `Except Fatal _` or `Except Halt _`.
* `float64` arithmetic and `strconv.ParseFloat` belong to the Go runtime and
  library, not to this program.  The program is embedded over an arbitrary
  interpretation of them (`Float64Sem`): what is proved for every
  interpretation holds for the one the Go toolchain provides.  Closed examples
  are evaluated in `Float64Sem.ref`.
* The file system is reached through package `os`.  `findNextName` is embedded over the
  answers of `os.Stat`, and the start of `main` over an interpretation of the calls it
  makes (`FileSys`), with `FileSys.ref` for closed examples.  Package `path/filepath`
  is taken with `/` as its separator.
-/

namespace Audioclipper

/-- A Go string, as its sequence of characters. -/
abbrev GoString := List Char

/-- An interpretation of the `float64` operations the program uses:
the constants `0`, `1` and `60`, `+`, `*`, the comparisons `<` and `>=`
(as `ge a b = le b a`), and `strconv.ParseFloat(s, 64)`, which is `none`
when the returned `err` is not `nil`. -/
structure Float64Sem where
  F : Type
  zero : F
  one : F
  sixty : F
  add : F → F → F
  mul : F → F → F
  lt : F → F → Bool
  le : F → F → Bool
  ParseFloat : GoString → Option F

/-- The values of the reference interpretation: NaN, the two infinities, and
the integers (every integer below `2 ^ 53` in magnitude is a `float64`, and sums
and products of such integers that stay in that range are exact). -/
inductive RefFloat where
  | nan : RefFloat
  | negInf : RefFloat
  | fin : Int → RefFloat
  | posInf : RefFloat
  deriving DecidableEq

namespace RefFloat

/-- IEEE 754 addition on the reference values. -/
def add : RefFloat → RefFloat → RefFloat
  | nan, _ => nan
  | _, nan => nan
  | posInf, negInf => nan
  | negInf, posInf => nan
  | posInf, _ => posInf
  | _, posInf => posInf
  | negInf, _ => negInf
  | _, negInf => negInf
  | fin a, fin b => fin (a + b)

/-- IEEE 754 multiplication on the reference values. -/
def mul : RefFloat → RefFloat → RefFloat
  | nan, _ => nan
  | _, nan => nan
  | fin a, fin b => fin (a * b)
  | fin a, posInf => if a = 0 then nan else if 0 < a then posInf else negInf
  | fin a, negInf => if a = 0 then nan else if 0 < a then negInf else posInf
  | posInf, fin b => if b = 0 then nan else if 0 < b then posInf else negInf
  | negInf, fin b => if b = 0 then nan else if 0 < b then negInf else posInf
  | posInf, posInf => posInf
  | negInf, negInf => posInf
  | posInf, negInf => negInf
  | negInf, posInf => negInf

/-- IEEE 754 `<`: false as soon as one side is NaN. -/
def lt : RefFloat → RefFloat → Bool
  | nan, _ => false
  | _, nan => false
  | negInf, negInf => false
  | negInf, _ => true
  | _, negInf => false
  | posInf, _ => false
  | fin _, posInf => true
  | fin a, fin b => decide (a < b)

/-- IEEE 754 `<=`: false as soon as one side is NaN. -/
def le : RefFloat → RefFloat → Bool
  | nan, _ => false
  | _, nan => false
  | negInf, _ => true
  | _, posInf => true
  | posInf, _ => false
  | _, negInf => false
  | fin a, fin b => decide (a ≤ b)

/-- The value of a decimal digit. -/
def digit (c : Char) : Option Nat :=
  if 48 ≤ c.toNat ∧ c.toNat ≤ 57 then some (c.toNat - 48) else none

/-- The value of a non-empty run of decimal digits, most significant first,
continuing from the value `acc` of the digits already read. -/
def digits : List Char → Nat → Option Nat
  | [], _ => none
  | [c], acc => (digit c).map (fun d => acc * 10 + d)
  | c :: cs, acc =>
    match digit c with
    | none => none
    | some d => digits cs (acc * 10 + d)

/-- The part of `strconv.ParseFloat` the examples use: `NaN`; `Inf` with an
optional sign; an optionally signed run of decimal digits.  Other strings are
outside the reference interpretation and read as errors. -/
def parse (s : GoString) : Option RefFloat :=
  if s = ['N', 'a', 'N'] then some nan
  else if s = ['I', 'n', 'f'] ∨ s = ['+', 'I', 'n', 'f'] then some posInf
  else if s = ['-', 'I', 'n', 'f'] then some negInf
  else
    match s with
    | '-' :: ds => (digits ds 0).map (fun n => fin (- (n : Int)))
    | '+' :: ds => (digits ds 0).map (fun n => fin (n : Int))
    | ds => (digits ds 0).map (fun n => fin (n : Int))

end RefFloat

/-- The reference interpretation of `float64`. -/
def Float64Sem.ref : Float64Sem where
  F := RefFloat
  zero := RefFloat.fin 0
  one := RefFloat.fin 1
  sixty := RefFloat.fin 60
  add := RefFloat.add
  mul := RefFloat.mul
  lt := RefFloat.lt
  le := RefFloat.le
  ParseFloat := RefFloat.parse

/-- Facts of IEEE 754 comparison the program relies on, for values that are not
NaN (`x >= x` holds exactly for those): two such values are ordered one way or
the other, and adding `1` does not make a value smaller. -/
structure Float64Sem.Ordered (sem : Float64Sem) : Prop where
  total : ∀ a b : sem.F, sem.le a a = true → sem.le b b = true →
    sem.lt b a = false → sem.le a b = true
  le_add_one : ∀ a : sem.F, sem.le a a = true → sem.le a (sem.add a sem.one) = true

/-- The ways the process is ended by `log.Fatalf` / `log.Fatalln` while parsing. -/
inductive Fatal where
  /-- The message `error parsing timestamp %s` of `parseTimestamp`. -/
  | timestamp (s : GoString) : Fatal
  /-- The message `could not open clip file`. -/
  | couldNotOpen : Fatal
  /-- The message `could not parse line #%d: %v`, with the values of `count` and `str`. -/
  | couldNotParse (count : Nat) (str : GoString) : Fatal
  deriving DecidableEq

/-- The struct `clip`. -/
structure clip (sem : Float64Sem) where
  Start : sem.F
  End : sem.F
  Name : GoString

/-- The character class `\s` of Go regular expressions: `[\t\n\f\r ]`. -/
def isSpace (c : Char) : Bool :=
  c = '\t' || c = '\n' || c = Char.ofNat 12 || c = '\r' || c = ' '

/-- The call `regexp.MustCompile("\\s").ReplaceAllString(s, "")`: every
whitespace character is removed. -/
def removeSpace (s : GoString) : GoString :=
  s.filter (fun c => !isSpace c)

/-- The call `rgx.ReplaceAllString(s, "")` for `rgx = ^\s*$`: the pattern matches
only a string made of whitespace, and then all of it. -/
def blankToEmpty (s : GoString) : GoString :=
  if s.all isSpace then [] else s

/-- The index of the first `sep` in `s` (`strings.Index` for a one-character
separator). -/
def Index (s : GoString) (sep : Char) : Option Nat :=
  match s with
  | [] => none
  | c :: cs => if c = sep then some 0 else (Index cs sep).map (· + 1)

/-- The call `strings.SplitN(s, sep, n)` for a one-character separator and
`n ≥ 0`: at most `n` substrings, the last one being the unsplit remainder. -/
def SplitN (s : GoString) (sep : Char) : Nat → List GoString
  | 0 => []
  | 1 => [s]
  | n + 2 =>
    match Index s sep with
    | none => [s]
    | some m => s.take m :: SplitN (s.drop (m + 1)) sep (n + 1)

/-- The function `parseTimestamp`. -/
def parseTimestamp (sem : Float64Sem) (s : GoString) : Except Fatal sem.F :=
  let s := removeSpace s
  if s = [] then
    .ok sem.zero
  else
    let fields := SplitN s ':' 2
    if fields.length > 2 then
      .error (Fatal.timestamp s)
    else if fields.length = 1 then
      match sem.ParseFloat s with
      | none => .ok sem.zero
      | some ss => .ok ss
    else
      match sem.ParseFloat (fields.getD 0 []) with
      | none => .ok sem.zero
      | some mm =>
        match sem.ParseFloat (fields.getD 1 []) with
        | none => .ok sem.zero
        | some ss => .ok (sem.add (sem.mul mm sem.sixty) ss)

/-- The function `parseClip`; `none` is the `nil` pointer. -/
def parseClip (sem : Float64Sem) (line : GoString) : Except Fatal (Option (clip sem)) :=
  let fields := SplitN line ',' 3
  if fields.length < 3 then
    .ok none
  else
    match parseTimestamp sem (fields.getD 0 []) with
    | .error e => .error e
    | .ok start =>
      match parseTimestamp sem (fields.getD 1 []) with
      | .error e => .error e
      | .ok stop =>
        .ok (some
          { Start := start
            End := if sem.lt stop start then sem.add start sem.one else stop
            Name := fields.getD 2 [] })

/-- The size of the buffer `bufio.NewReader` allocates (`defaultBufSize`), in bytes. -/
def defaultBufSize : Nat := 4096

/-- What `(*bufio.Reader).ReadSlice` finds when it looks for a line feed. -/
inductive Scan where
  /-- The delimiter was found: the text before it and the text after it. -/
  | delim (line rest : GoString) : Scan
  /-- The buffer filled up before a delimiter was seen (`ErrBufferFull`). -/
  | bufferFull (buf rest : GoString) : Scan
  /-- The file ended before a delimiter was seen (`io.EOF`). -/
  | atEOF (line : GoString) : Scan
  /-- The buffer filled up inside a character of several bytes: the bytes bufio hands
  over then are not a sequence of whole characters. -/
  | cut : Scan
  deriving DecidableEq

/-- Put a character in front of the text that was scanned. -/
def Scan.push (c : Char) : Scan → Scan
  | .delim line rest => .delim (c :: line) rest
  | .bufferFull buf rest => .bufferFull (c :: buf) rest
  | .atEOF line => .atEOF (c :: line)
  | .cut => .cut

/-- The search of `ReadSlice` over the unread text `s`, with `room` bytes of the
buffer still free.  A character takes `Char.utf8Size` bytes; when the room left is
less than the next character needs, the buffer ends inside that character (`cut`). -/
def scan (room : Nat) (s : GoString) : Scan :=
  match s with
  | [] => if room = 0 then .bufferFull [] [] else .atEOF []
  | c :: cs =>
    if room = 0 then .bufferFull [] (c :: cs)
    else if c = '\n' then .delim [] cs
    else if c.utf8Size ≤ room then (scan (room - c.utf8Size) cs).push c
    else .cut

/-- What a call of `(*bufio.Reader).ReadLine` gives. -/
inductive Line where
  /-- The end of the file (`io.EOF`). -/
  | eof : Line
  /-- A line, or a piece of a line that does not fit in the buffer, and the text left
  unread. -/
  | line (l rest : GoString) : Line
  /-- A piece that ends inside a character: it is not a sequence of characters, and
  the embedding does not follow the run any further. -/
  | cut : Line
  deriving DecidableEq

/-- The method `(*bufio.Reader).ReadLine` on a reader whose unread text is `s`.
A line that does not fit in the buffer comes back in pieces (`isPrefix`); the
caller ignores `isPrefix`, so it is not returned.  Reads are assumed not to fail. -/
def ReadLine (s : GoString) : Line :=
  match scan defaultBufSize s with
  | .bufferFull buf rest =>
    if buf.getLast? = some '\r' then .line buf.dropLast ('\r' :: rest) else .line buf rest
  | .delim line rest =>
    .line (if line.getLast? = some '\r' then line.dropLast else line) rest
  | .atEOF line => if line = [] then .eof else .line line []
  | .cut => .cut

/-- The `for` loop of `parseClipFile`, run for at most `fuel` iterations on the
unread text `rest`, with the local variables `count` and `clips`; `none` when
the iterations are used up, or when a piece ends inside a character. -/
def parseClipFile.loop (sem : Float64Sem) :
    Nat → GoString → Nat → List (clip sem) → Option (Except Fatal (List (clip sem)))
  | 0, _, _, _ => none
  | fuel + 1, rest, count, clips =>
    match ReadLine rest with
    | .eof => some (.ok clips)
    | .cut => none
    | .line l rest =>
      let str := blankToEmpty l
      if str = [] then
        parseClipFile.loop sem fuel rest (count + 1) clips
      else
        match parseClip sem str with
        | .error e => some (.error e)
        | .ok none => some (.error (Fatal.couldNotParse count str))
        | .ok (some c) => parseClipFile.loop sem fuel rest (count + 1) (clips ++ [c])

/-- The function `parseClipFile` on the content of the file `fname` (`none` when
`os.Open` fails).  Every iteration of the loop reads at least one character, so
one more iteration than there are characters is enough; the result is `none` only
when a piece of a line of 4096 bytes or more ends inside a character. -/
def parseClipFile (sem : Float64Sem) (file : Option GoString) :
    Option (Except Fatal (List (clip sem))) :=
  match file with
  | none => some (.error Fatal.couldNotOpen)
  | some content =>
    match ReadLine content with
    | .eof => parseClipFile.loop sem (content.length + 1) content 1 []
    | .cut => none
    | .line _ rest => parseClipFile.loop sem (content.length + 1) rest 1 []

/-- The text of a file whose lines are `ls`, every one ended by a line feed. -/
def unlines : List GoString → GoString
  | [] => []
  | l :: ls => l ++ '\n' :: unlines ls

/-- A line that `ReadLine` hands over in one piece and unchanged: it holds no line
feed, does not end in a carriage return, and takes fewer bytes than the buffer has. -/
def WholeLine (l : GoString) : Prop :=
  '\n' ∉ l ∧ l.getLast? ≠ some '\r' ∧ (l.map Char.utf8Size).sum < defaultBufSize

/-- The clips `parseClip` gives for the lines of `ls` that are not blank, in order. -/
def clipsOf (sem : Float64Sem) (ls : List GoString) : List (clip sem) :=
  ls.filterMap (fun l =>
    if l.all isSpace then none
    else match parseClip sem l with
      | .ok (some c) => some c
      | _ => none)

/-! ## Output names -/

/-- The pattern `filenameSanitizer`, a class of single characters: whitespace and the
characters `<`, `>`, `:`, double quote (character 34), `/`, backslash (character 92),
`|`, `*` and `?`. -/
def filenameSanitizer (c : Char) : Bool :=
  isSpace c || c = '<' || c = '>' || c = ':' || c = Char.ofNat 34 || c = '/' ||
    c = Char.ofNat 92 || c = '|' || c = '*' || c = '?'

/-- The method `ReplaceAllString(src, repl)` of a pattern that matches single
characters, those for which `re` holds, with a replacement text free of `$`. -/
def ReplaceAllString (re : Char → Bool) (src repl : GoString) : GoString :=
  match src with
  | [] => []
  | c :: cs =>
    if re c then repl ++ ReplaceAllString re cs repl else c :: ReplaceAllString re cs repl

/-- The function `sanitizeName`. -/
def sanitizeName (s : GoString) : GoString :=
  ReplaceAllString filenameSanitizer s ['_']

/-- The search of `filepath.Ext` from the end of the path: `rev` holds the characters
not yet looked at, last one first, and `acc` the ones already passed. -/
def Ext.scan : GoString → GoString → GoString
  | [], _ => []
  | c :: rev, acc =>
    if c = '/' then [] else if c = '.' then c :: acc else Ext.scan rev (c :: acc)

/-- The function `filepath.Ext` (with `/` as the path separator): the suffix that
starts at the last dot of the last element of the path, or the empty string. -/
def Ext (path : GoString) : GoString :=
  Ext.scan path.reverse []

/-- The function `strings.HasSuffix`. -/
def HasSuffix (s suffix : GoString) : Bool :=
  decide (suffix.length ≤ s.length) && (s.drop (s.length - suffix.length) == suffix)

/-- The function `strings.TrimSuffix`. -/
def TrimSuffix (s suffix : GoString) : GoString :=
  if HasSuffix s suffix then s.take (s.length - suffix.length) else s

/-- The decimal digits of `n`, most significant first, when `fuel` is more than their
number. -/
def FormatInt.digits : Nat → Nat → GoString
  | 0, _ => []
  | fuel + 1, n =>
    if n < 10 then [Char.ofNat (48 + n)]
    else FormatInt.digits fuel (n / 10) ++ [Char.ofNat (48 + n % 10)]

/-- The verb `%d` of `fmt.Sprintf` on an `int` that is not negative. -/
def FormatInt (n : Nat) : GoString :=
  FormatInt.digits (n + 1) n

/-- What `os.Stat` reports about a path: `err == nil`, an error for which
`os.IsNotExist` holds, or another error. -/
inductive StatResult where
  | found : StatResult
  | notExist : StatResult
  | failed : StatResult
  deriving DecidableEq

/-- The ways the process is ended outside the parsing of the manifest. -/
inductive Halt where
  /-- The usage message followed by `os.Exit(1)`. -/
  | usage : Halt
  /-- The call `log.Fatalln(err)` after `os.Stat` on `path` failed. -/
  | stat (path : GoString) : Halt
  /-- The call `log.Fatalln(err)` after `os.RemoveAll` on `path` failed. -/
  | removeAll (path : GoString) : Halt
  /-- The call `log.Fatalln(err)` after `os.Mkdir` on `path` failed. -/
  | mkdir (path : GoString) : Halt
  deriving DecidableEq

/-- The `for` loop of `findNextName`, run for at most `fuel` iterations, every one of
which calls `os.Stat` once; `stat` is the answer of `os.Stat` for every path, and `none`
means the iterations are used up.  (The counter `count` is a Go `int`; it is taken
without an upper bound, which it cannot reach before `2 ^ 31` candidates exist.) -/
def findNextName.loop (stat : GoString → StatResult) :
    Nat → GoString → GoString → Nat → GoString → Option (Except Halt GoString)
  | 0, _, _, _, _ => none
  | fuel + 1, s, ext, count, testName =>
    match stat testName with
    | .failed => some (.error (Halt.stat testName))
    | .notExist => some (.ok testName)
    | .found =>
      findNextName.loop stat fuel s ext (count + 1) (s ++ FormatInt (count + 1) ++ ext)

/-- The function `findNextName`. -/
def findNextName (stat : GoString → StatResult) (fuel : Nat) (s : GoString) :
    Option (Except Halt GoString) :=
  let ext := Ext s
  let s := TrimSuffix s ext
  findNextName.loop stat fuel s ext 1 (s ++ ext)

/-- The candidate names of `findNextName` for the path `p`, in the order they are
tried: `p`, then `base2ext`, `base3ext` and so on. -/
def candidate (p : GoString) (k : Nat) : GoString :=
  if k = 0 then p else TrimSuffix p (Ext p) ++ FormatInt (k + 1) ++ Ext p

/-- The answers of `os.Stat` once a file has been written at `p`. -/
def created (p : GoString) (stat : GoString → StatResult) : GoString → StatResult :=
  fun q => if q = p then .found else stat q

/-- The same path resolved `n` times with `findNextName`, the returned file being
created after every resolution: the paths returned, in order. -/
def resolveRepeatedly (fuel : Nat) (p : GoString) :
    Nat → (GoString → StatResult) → Option (List GoString)
  | 0, _ => some []
  | n + 1, stat =>
    match findNextName stat fuel p with
    | some (.ok r) => (resolveRepeatedly fuel p n (created r stat)).map (r :: ·)
    | _ => none

/-- The function `strings.Split` for a one-character separator. -/
def Split (sep : Char) : GoString → List GoString
  | [] => [[]]
  | c :: cs =>
    if c = sep then [] :: Split sep cs
    else
      match Split sep cs with
      | e :: es => (c :: e) :: es
      | [] => [[c]]

/-- The elements `filepath.Clean` keeps, given the elements still to read and, in `out`,
the ones kept so far, last one first: empty elements and `.` are dropped, `..` removes
the element before it, or is dropped at the root, or is kept at the start of a path
that is not rooted. -/
def Clean.elems (rooted : Bool) : List GoString → List GoString → List GoString
  | [], out => out.reverse
  | e :: es, out =>
    if e = [] ∨ e = ['.'] then Clean.elems rooted es out
    else if e = ['.', '.'] then
      match out with
      | top :: rest =>
        if top = ['.', '.'] then Clean.elems rooted es (e :: out)
        else Clean.elems rooted es rest
      | [] => if rooted then Clean.elems rooted es [] else Clean.elems rooted es [e]
    else Clean.elems rooted es (e :: out)

/-- The function `filepath.Clean`, with `/` as the separator. -/
def Clean (path : GoString) : GoString :=
  if path = [] then ['.']
  else
    let rooted := path.head? = some '/'
    let body := List.intercalate ['/'] (Clean.elems rooted (Split '/' path) [])
    let out := if rooted then '/' :: body else body
    if out = [] then ['.'] else out

/-- The function `filepath.Join`, with `/` as the separator: the elements from the
first one that is not empty on, joined by separators and cleaned. -/
def Join : List GoString → GoString
  | [] => []
  | e :: es => if e = [] then Join es else Clean (List.intercalate ['/'] (e :: es))

/-- The struct `command`. -/
structure command (sem : Float64Sem) where
  Input : GoString
  Clip : clip sem

/-- The directory name `clipsDir` that `main` computes from its arguments. -/
def clipsDir (args : List GoString) : GoString :=
  TrimSuffix (args.getD 1 []) ".txt".toList

/-- The `for` loop of `main` over the clips still to submit: every clip gets its new
name and is sent on the channel `cmds`; `sent` holds the commands sent so far, in
the order of the sends. -/
def main.submit {sem : Float64Sem} (args : List GoString) :
    List (clip sem) → List (command sem) → List (command sem)
  | [], sent => sent
  | c :: clips, sent =>
    let c := { c with Name := Join [clipsDir args, sanitizeName c.Name] }
    main.submit args clips (sent ++ [{ Input := args.getD 2 [], Clip := c }])

/-- The path `output` that `convert` hands to ffmpeg for the clip `c`. -/
def convert {sem : Float64Sem} (stat : GoString → StatResult) (fuel : Nat)
    (_input : GoString) (c : clip sem) : Option (Except Halt GoString) :=
  findNextName stat fuel (c.Name ++ ".mp3".toList)

/-! ## The output directory -/

/-- An interpretation of the calls of package `os` that `main` makes on the output
directory, over the states of a file system: `os.Stat`, `os.RemoveAll` and `os.Mkdir`
(`none` when the returned `err` is not `nil`), the content `ReadFile st p` of the regular
file that `p` names in `st`, if any, and whether `p` names, in `st`, what `d` names or
something inside it. -/
structure FileSys where
  State : Type
  Stat : State → GoString → StatResult
  RemoveAll : State → GoString → Option State
  Mkdir : State → GoString → Option State
  ReadFile : State → GoString → Option GoString
  Inside : State → GoString → GoString → Bool

/-- Facts about `os.Stat`, `os.RemoveAll` and `os.Mkdir`: a regular file exists, what
`os.RemoveAll` has removed without an error does not exist any more, removing `d` leaves
the files outside `d` as they are, making a directory leaves the files that exist as
they are, and what has just been made is a directory, not a file. -/
structure FileSys.Frame (os : FileSys) : Prop where
  stat_file : ∀ (st : os.State) (p c : GoString), os.ReadFile st p = some c →
    os.Stat st p = .found
  removeAll_gone : ∀ (st st2 : os.State) (d : GoString), os.RemoveAll st d = some st2 →
    os.Stat st2 d = .notExist
  removeAll : ∀ (st st2 : os.State) (d p : GoString), os.RemoveAll st d = some st2 →
    os.Inside st d p = false → os.ReadFile st2 p = os.ReadFile st p
  mkdir : ∀ (st st2 : os.State) (d p : GoString) (c : GoString), os.Mkdir st d = some st2 →
    os.ReadFile st p = some c → os.ReadFile st2 p = some c
  mkdir_dir : ∀ (st st2 : os.State) (d : GoString), os.Mkdir st d = some st2 →
    os.ReadFile st2 d = none

/-- The `for` loop of `unlinkIfExists`, run for at most `fuel` iterations from the
state `st` of the file system, with the local variable `removed`; `none` when the
iterations are used up. -/
def unlinkIfExists.loop (os : FileSys) :
    Nat → os.State → GoString → Bool → Option (Except Halt os.State)
  | 0, _, _, _ => none
  | fuel + 1, st, dir, removed =>
    match os.Stat st dir with
    | .failed => some (.error (Halt.stat dir))
    | .notExist => some (.ok st)
    | .found =>
      if !removed then
        match os.RemoveAll st dir with
        | none => some (.error (Halt.removeAll dir))
        | some st => unlinkIfExists.loop os fuel st dir true
      else unlinkIfExists.loop os fuel st dir removed

/-- The function `unlinkIfExists`. -/
def unlinkIfExists (os : FileSys) (fuel : Nat) (st : os.State) (dir : GoString) :
    Option (Except Halt os.State) :=
  unlinkIfExists.loop os fuel st dir false

/-- The start of `main`, up to the call of `parseClipFile`: the check of the
arguments, the removal of the output directory and its creation.  The result is the
state of the file system in which `parseClipFile` opens the manifest. -/
def main.setup (os : FileSys) (fuel : Nat) (st : os.State) (args : List GoString) :
    Option (Except Halt os.State) :=
  if args.length < 3 then some (.error Halt.usage)
  else
    match unlinkIfExists os fuel st (clipsDir args) with
    | none => none
    | some (.error e) => some (.error e)
    | some (.ok st) =>
      match os.Mkdir st (clipsDir args) with
      | none => some (.error (Halt.mkdir (clipsDir args)))
      | some st => some (.ok st)

/-- The place a path names in the reference file system: its elements, after a `/`
when the path is rooted (the elements `.` and `..`, links and permissions are not
modelled). -/
def RefFS.place (p : GoString) : List GoString :=
  (if p.head? = some '/' then [['/']] else []) ++ (Split '/' p).filter (fun e => e ≠ [])

/-- What the reference file system holds at the place of `p`: nothing, a directory
(`some none`) or a file with its content. -/
def RefFS.lookup (st : List (List GoString × Option GoString)) (p : GoString) :
    Option (Option GoString) :=
  (st.find? (fun e => e.1 = RefFS.place p)).map (fun e => e.2)

/-- The reference file system: a list of places, every one a directory or a file. -/
def FileSys.ref : FileSys where
  State := List (List GoString × Option GoString)
  Stat st p := if p = [] then .notExist else if (RefFS.lookup st p).isSome then .found else .notExist
  RemoveAll st p := some (st.filter (fun e => !(RefFS.place p).isPrefixOf e.1))
  Mkdir st p :=
    if p = [] ∨ (RefFS.lookup st p).isSome then none else some ((RefFS.place p, none) :: st)
  ReadFile st p := if p = [] then none else (RefFS.lookup st p).join
  Inside _ d p := (RefFS.place d).isPrefixOf (RefFS.place p)

/-! ## The workers -/

/-- What happens next in a run of `main` and its `converter` goroutines. -/
inductive Event where
  /-- The send `cmds <- ...` of `main` meets the receive of the worker `w`, which is
  waiting in `range cmds`. -/
  | handoff (w : Nat) : Event
  /-- The call of `convert` returns in the worker `w`: ffmpeg has written the clip. -/
  | finish (w : Nat) : Event
  /-- The call `close(cmds)` and the return of `main`, which ends the program: a Go
  program does not wait for its other goroutines when `main` returns. -/
  | mainReturns : Event

/-- The state of a run: the commands `main` has still to send, for every worker the
command it is converting (`none` while it waits for one), the commands whose conversion
is complete, and whether the program has ended. -/
structure Pool (sem : Float64Sem) where
  queue : List (command sem)
  workers : List (Option (command sem))
  completed : List (command sem)
  exited : Bool

/-- The state of the run when `main` has started its `nCPU` workers and is about to
send the first of `jobs`. -/
def Pool.start {sem : Float64Sem} (nCPU : Nat) (jobs : List (command sem)) : Pool sem :=
  { queue := jobs, workers := List.replicate nCPU none, completed := [], exited := false }

/-- One event in a state, `none` when the event cannot happen there: nothing happens
once the program has ended, the channel has no buffer so a send needs a waiting
worker, and `main` reaches `close(cmds)` only after its last send. -/
def Pool.step {sem : Float64Sem} (p : Pool sem) : Event → Option (Pool sem)
  | .handoff w =>
    match p.exited, p.queue, p.workers.get? w with
    | false, job :: queue, some none =>
      some { p with queue := queue, workers := p.workers.set w (some job) }
    | _, _, _ => none
  | .finish w =>
    match p.exited, p.workers.get? w with
    | false, some (some job) =>
      some { p with workers := p.workers.set w none, completed := p.completed ++ [job] }
    | _, _ => none
  | .mainReturns =>
    match p.exited, p.queue with
    | false, [] => some { p with exited := true }
    | _, _ => none

/-- A sequence of events from a state. -/
def Pool.run {sem : Float64Sem} (p : Pool sem) : List Event → Option (Pool sem)
  | [] => some p
  | e :: es =>
    match p.step e with
    | none => none
    | some q => q.run es

/-- The number that a run of decimal digits stands for. -/
def decimalValue (ds : GoString) : Nat :=
  ds.foldl (fun acc c => acc * 10 + (c.toNat - 48)) 0

/-- The answers of `os.Stat` when the paths of `existing` exist, no other path does, and
no call fails. -/
def statOf (existing : List GoString) : GoString → StatResult :=
  fun q => if q ∈ existing then .found else .notExist

/-! ## Splitting on a separator -/

theorem Index_eq_none_iff (s : GoString) (sep : Char) : Index s sep = none ↔ sep ∉ s := by
  induction s with
  | nil => simp [Index]
  | cons c cs ih =>
    by_cases h : c = sep
    · simp [Index, h]
    · have h2 : ¬ sep = c := fun e => h e.symm
      simp [Index, h, h2, ih]

theorem Index_append_sep (a b : GoString) (sep : Char) (ha : sep ∉ a) :
    Index (a ++ sep :: b) sep = some a.length := by
  induction a with
  | nil => simp [Index]
  | cons c cs ih =>
    have hc : ¬ c = sep := fun e => ha (by simp [e])
    have hcs : sep ∉ cs := fun e => ha (by simp [e])
    simp [Index, hc, ih hcs]

theorem Index_some_split (s : GoString) (sep : Char) (m : Nat) (h : Index s sep = some m) :
    sep ∉ s.take m ∧ s = s.take m ++ sep :: s.drop (m + 1) := by
  induction s generalizing m with
  | nil => simp [Index] at h
  | cons c cs ih =>
    by_cases hc : c = sep
    · simp [Index, hc] at h
      subst h
      simp [hc]
    · simp only [Index, hc, if_false, Option.map_eq_some'] at h
      obtain ⟨k, hk, rfl⟩ := h
      obtain ⟨h1, h2⟩ := ih k hk
      have hc2 : ¬ sep = c := fun e => hc e.symm
      refine ⟨by simp [hc2, h1], ?_⟩
      simp only [List.take_succ_cons, List.drop_succ_cons, List.cons_append]
      rw [← h2]

theorem SplitN_length_le (s : GoString) (sep : Char) (n : Nat) : (SplitN s sep n).length ≤ n := by
  induction n generalizing s with
  | zero => simp [SplitN]
  | succ n ih =>
    cases n with
    | zero => simp [SplitN]
    | succ n =>
      unfold SplitN
      cases h : Index s sep with
      | none => simp
      | some m => simpa using ih (s.drop (m + 1))

theorem SplitN_of_not_mem (s : GoString) (sep : Char) (n : Nat) (h : sep ∉ s) :
    SplitN s sep (n + 1) = [s] := by
  cases n with
  | zero => simp [SplitN]
  | succ n => simp [SplitN, (Index_eq_none_iff s sep).2 h]

theorem SplitN_append_sep (a b : GoString) (sep : Char) (n : Nat) (ha : sep ∉ a) :
    SplitN (a ++ sep :: b) sep (n + 2) = a :: SplitN b sep (n + 1) := by
  rw [SplitN, Index_append_sep a b sep ha]
  simp

theorem count_append_sep (a b : GoString) (sep : Char) (ha : sep ∉ a) :
    (a ++ sep :: b).count sep = b.count sep + 1 := by
  simp [List.count_append, List.count_eq_zero_of_not_mem ha]

theorem exists_first_sep (s : GoString) (sep : Char) (h : sep ∈ s) :
    ∃ a b, sep ∉ a ∧ s = a ++ sep :: b := by
  cases hi : Index s sep with
  | none => exact absurd h ((Index_eq_none_iff s sep).1 hi)
  | some m => exact ⟨s.take m, s.drop (m + 1), Index_some_split s sep m hi⟩

theorem SplitN_three_length_lt_iff (line : GoString) (sep : Char) :
    (SplitN line sep 3).length < 3 ↔ line.count sep < 2 := by
  by_cases h1 : sep ∈ line
  · obtain ⟨a, r, ha, rfl⟩ := exists_first_sep line sep h1
    rw [SplitN_append_sep a r sep 1 ha, count_append_sep a r sep ha]
    by_cases h2 : sep ∈ r
    · obtain ⟨b, c, hb, rfl⟩ := exists_first_sep r sep h2
      rw [SplitN_append_sep b c sep 0 hb, count_append_sep b c sep hb]
      simp [SplitN]
    · rw [SplitN_of_not_mem r sep 1 h2, List.count_eq_zero_of_not_mem h2]
      simp
  · rw [SplitN_of_not_mem line sep 2 h1, List.count_eq_zero_of_not_mem h1]
    simp

theorem exists_three_fields (line : GoString) (sep : Char) (h : 2 ≤ line.count sep) :
    ∃ a b c, sep ∉ a ∧ sep ∉ b ∧ line = a ++ sep :: (b ++ sep :: c) ∧
      SplitN line sep 3 = [a, b, c] := by
  have h1 : sep ∈ line := List.count_pos_iff.1 (by omega)
  obtain ⟨a, r, ha, rfl⟩ := exists_first_sep line sep h1
  rw [count_append_sep a r sep ha] at h
  have h2 : sep ∈ r := List.count_pos_iff.1 (by omega)
  obtain ⟨b, c, hb, rfl⟩ := exists_first_sep r sep h2
  refine ⟨a, b, c, ha, hb, rfl, ?_⟩
  rw [SplitN_append_sep a _ sep 1 ha, SplitN_append_sep b c sep 0 hb]
  simp [SplitN]


theorem parseTimestamp_of_no_colon (sem : Float64Sem) (s : GoString) (h : ':' ∉ removeSpace s) :
    parseTimestamp sem s = .ok (if removeSpace s = [] then sem.zero
      else (sem.ParseFloat (removeSpace s)).getD sem.zero) := by
  unfold parseTimestamp
  by_cases he : removeSpace s = []
  · simp [he]
  · simp only [he, if_false, SplitN_of_not_mem _ ':' 1 h]
    cases hp : sem.ParseFloat (removeSpace s) <;> simp

theorem parseTimestamp_of_colon (sem : Float64Sem) (s a b : GoString)
    (hs : removeSpace s = a ++ ':' :: b) (ha : ':' ∉ a) :
    parseTimestamp sem s = .ok
      (match sem.ParseFloat a, sem.ParseFloat b with
       | some m, some v => sem.add (sem.mul m sem.sixty) v
       | _, _ => sem.zero) := by
  unfold parseTimestamp
  have hsplit : SplitN (a ++ ':' :: b) ':' 2 = [a, b] := by
    rw [SplitN_append_sep a b ':' 0 ha]; simp [SplitN]
  simp only [hs, hsplit]
  cases hm : sem.ParseFloat a <;> cases hv : sem.ParseFloat b <;> simp [hm, hv]

theorem removeSpace_not_mem (s : GoString) (c : Char) (h : c ∉ s) : c ∉ removeSpace s := by
  intro hc
  exact h (List.mem_of_mem_filter hc)

theorem parseTimestamp_ok (sem : Float64Sem) (s : GoString) :
    ∃ v, parseTimestamp sem s = .ok v := by
  by_cases h : ':' ∈ removeSpace s
  · obtain ⟨a, b, ha, hs⟩ := exists_first_sep _ ':' h
    exact ⟨_, parseTimestamp_of_colon sem s a b hs ha⟩
  · exact ⟨_, parseTimestamp_of_no_colon sem s h⟩

/-- C1: the timestamp parser never takes its fatal path: it returns a value for every
string, and `0` for `1:2:3`, which has three colon-separated fields. -/
theorem parseTimestamp_never_fatal :
    (∀ (sem : Float64Sem) (s : GoString), ∃ v, parseTimestamp sem s = .ok v) ∧
      parseTimestamp Float64Sem.ref "1:2:3".toList = .ok (RefFloat.fin 0) :=
  ⟨parseTimestamp_ok, rfl⟩

/-- C2: when the string without its whitespace is `a:b`, with no colon in `a`, and `a` and
`b` parse as the numbers `m` and `v`, the timestamp parser returns `m * 60 + v`. -/
theorem parseTimestamp_minutes_seconds (sem : Float64Sem) (s a b : GoString) (m v : sem.F)
    (hs : removeSpace s = a ++ ':' :: b) (ha : ':' ∉ a)
    (hm : sem.ParseFloat a = some m) (hv : sem.ParseFloat b = some v) :
    parseTimestamp sem s = .ok (sem.add (sem.mul m sem.sixty) v) := by
  rw [parseTimestamp_of_colon sem s a b hs ha, hm, hv]

/-- The timestamp `1:30` is 90 seconds. -/
theorem parseTimestamp_minutes_seconds_witness :
    parseTimestamp Float64Sem.ref "1:30".toList = .ok (RefFloat.fin 90) :=
  parseTimestamp_minutes_seconds Float64Sem.ref "1:30".toList "1".toList "30".toList
    (RefFloat.fin 1) (RefFloat.fin 30) rfl (by decide) rfl rfl

/-- For `5:` the timestamp parser returns `0`, not `5 * 60 + 0`: an empty seconds field
is not read as `0`. -/
theorem parseTimestamp_subfield_counterexample :
    parseTimestamp Float64Sem.ref "5:".toList = .ok (RefFloat.fin 0) ∧
    parseTimestamp Float64Sem.ref "5:".toList ≠
      .ok (Float64Sem.ref.add
        (Float64Sem.ref.mul ((Float64Sem.ref.ParseFloat "5".toList).getD Float64Sem.ref.zero)
          Float64Sem.ref.sixty)
        ((Float64Sem.ref.ParseFloat "".toList).getD Float64Sem.ref.zero)) := by
  refine ⟨rfl, ?_⟩
  intro h
  have h2 : RefFloat.fin 0 = RefFloat.fin 300 := Except.ok.inj h
  exact absurd h2 (by decide)

/-- C3 (amended): for a two-field timestamp `a:b` the timestamp parser returns
`m * 60 + v` when `a` and `b` parse as `m` and `v`, and `0` when either field does
not parse. -/
theorem parseTimestamp_two_fields (sem : Float64Sem) (s a b : GoString)
    (hs : removeSpace s = a ++ ':' :: b) (ha : ':' ∉ a) (hb : ':' ∉ b) :
    parseTimestamp sem s = .ok
      (match sem.ParseFloat a, sem.ParseFloat b with
       | some m, some v => sem.add (sem.mul m sem.sixty) v
       | _, _ => sem.zero) ∧
    (SplitN (removeSpace s) ':' 2 = [a, b]) := by
  refine ⟨parseTimestamp_of_colon sem s a b hs ha, ?_⟩
  rw [hs, SplitN_append_sep a b ':' 0 ha, SplitN_of_not_mem b ':' 0 hb]

/-- The timestamp `7 : x` has a seconds field that does not parse: the result is 0. -/
theorem parseTimestamp_two_fields_witness :
    parseTimestamp Float64Sem.ref "7 : x".toList = .ok (RefFloat.fin 0) ∧
    (SplitN (removeSpace "7 : x".toList) ':' 2 = ["7".toList, "x".toList]) :=
  parseTimestamp_two_fields Float64Sem.ref "7 : x".toList "7".toList "x".toList rfl
    (by decide) (by decide)

/-- C4: on a string without a colon the timestamp parser does not end the run: it
returns `0` when nothing is left once the whitespace is removed, the parsed number when
what is left parses, and `0` when it does not. -/
theorem parseTimestamp_no_colon (sem : Float64Sem) (s : GoString) (h : ':' ∉ s) :
    parseTimestamp sem s = .ok
      (if removeSpace s = [] then sem.zero
       else match sem.ParseFloat (removeSpace s) with
         | some ss => ss
         | none => sem.zero) := by
  rw [parseTimestamp_of_no_colon sem s (removeSpace_not_mem s ':' h)]
  cases sem.ParseFloat (removeSpace s) <;> rfl

/-- The timestamp ` 4 2 ` is read as 42. -/
theorem parseTimestamp_no_colon_witness :
    parseTimestamp Float64Sem.ref " 4 2 ".toList = .ok (RefFloat.fin 42) :=
  parseTimestamp_no_colon Float64Sem.ref " 4 2 ".toList (by decide)

theorem parseClip_of_fields (sem : Float64Sem) (line f0 f1 f2 : GoString) (st en : sem.F)
    (hf : SplitN line ',' 3 = [f0, f1, f2])
    (hst : parseTimestamp sem f0 = .ok st) (hen : parseTimestamp sem f1 = .ok en) :
    parseClip sem line = .ok (some
      { Start := st
        End := if sem.lt en st then sem.add st sem.one else en
        Name := f2 }) := by
  simp [parseClip, hf, hst, hen]

theorem parseClip_of_few_fields (sem : Float64Sem) (line : GoString)
    (h : (SplitN line ',' 3).length < 3) : parseClip sem line = .ok none := by
  simp [parseClip, h]

theorem parseClip_eq_none_iff (sem : Float64Sem) (line : GoString) :
    parseClip sem line = .ok none ↔ (SplitN line ',' 3).length < 3 := by
  constructor
  · intro h
    by_contra hlen
    have hc : 2 ≤ line.count ',' := by
      have := (SplitN_three_length_lt_iff line ',').not.1 hlen
      omega
    obtain ⟨a, b, c, -, -, -, hf⟩ := exists_three_fields line ',' hc
    obtain ⟨st, hst⟩ := parseTimestamp_ok sem a
    obtain ⟨en, hen⟩ := parseTimestamp_ok sem b
    rw [parseClip_of_fields sem line a b c st en hf hst hen] at h
    cases h
  · exact parseClip_of_few_fields sem line

theorem parseClip_ok (sem : Float64Sem) (line : GoString) :
    ∃ oc, parseClip sem line = .ok oc := by
  by_cases hlen : (SplitN line ',' 3).length < 3
  · exact ⟨none, parseClip_of_few_fields sem line hlen⟩
  · have hc : 2 ≤ line.count ',' := by
      have := (SplitN_three_length_lt_iff line ',').not.1 hlen
      omega
    obtain ⟨a, b, c, -, -, -, hf⟩ := exists_three_fields line ',' hc
    obtain ⟨st, hst⟩ := parseTimestamp_ok sem a
    obtain ⟨en, hen⟩ := parseTimestamp_ok sem b
    exact ⟨_, parseClip_of_fields sem line a b c st en hf hst hen⟩

theorem loop_error_count_le (sem : Float64Sem) (fuel : Nat) :
    ∀ (rest : GoString) (count : Nat) (clips : List (clip sem)) (k : Nat) (str : GoString),
      parseClipFile.loop sem fuel rest count clips = some (.error (Fatal.couldNotParse k str)) →
      count ≤ k := by
  induction fuel with
  | zero => intro rest count clips k str h; simp [parseClipFile.loop] at h
  | succ fuel ih =>
    intro rest count clips k str h
    unfold parseClipFile.loop at h
    cases hr : ReadLine rest with
    | eof => simp [hr] at h
    | cut => simp [hr] at h
    | line l rest2 =>
      simp only [hr] at h
      by_cases hb : blankToEmpty l = []
      · simp only [hb, if_true] at h
        have := ih _ _ _ _ _ h
        omega
      · simp only [hb, if_false] at h
        obtain ⟨oc, hp⟩ := parseClip_ok sem (blankToEmpty l)
        cases oc with
        | none =>
          simp only [hp] at h
          simp at h
          omega
        | some c =>
          simp only [hp] at h
          have := ih _ _ _ _ _ h
          omega

theorem blankToEmpty_of_not_blank (l : GoString) (h : l.all isSpace = false) :
    blankToEmpty l = l := by
  simp [blankToEmpty, h]

theorem not_blank_ne_nil (l : GoString) (h : l.all isSpace = false) : l ≠ [] := by
  intro e
  simp [e] at h

/-- When the loop of `parseClipFile` gets from `ReadLine` a piece that is not blank, that
piece has fewer than three comma-separated fields exactly when it has fewer than two
commas, `parseClip` returns `nil` exactly then, and the run ends on it exactly then. -/
theorem loop_piece_fatal_iff (sem : Float64Sem) (fuel : Nat) (rd l rest : GoString)
    (count : Nat) (clips : List (clip sem))
    (hread : ReadLine rd = .line l rest) (hblank : l.all isSpace = false) :
    ((SplitN l ',' 3).length < 3 ↔ l.count ',' < 2) ∧
    (parseClip sem l = .ok none ↔ l.count ',' < 2) ∧
    (parseClipFile.loop sem (fuel + 1) rd count clips
        = some (.error (Fatal.couldNotParse count l)) ↔ l.count ',' < 2) := by
  refine ⟨SplitN_three_length_lt_iff l ',', ?_, ?_⟩
  · rw [parseClip_eq_none_iff, SplitN_three_length_lt_iff]
  · have hne := not_blank_ne_nil l hblank
    have hb := blankToEmpty_of_not_blank l hblank
    unfold parseClipFile.loop
    simp only [hread, hb, hne, if_false]
    constructor
    · intro h
      by_contra hc
      have hc2 : 2 ≤ l.count ',' := by omega
      obtain ⟨a, b, c, -, -, -, hf⟩ := exists_three_fields l ',' hc2
      obtain ⟨st, hst⟩ := parseTimestamp_ok sem a
      obtain ⟨en, hen⟩ := parseTimestamp_ok sem b
      rw [parseClip_of_fields sem l a b c st en hf hst hen] at h
      have := loop_error_count_le sem fuel _ _ _ _ _ h
      omega
    · intro hc
      rw [parseClip_of_few_fields sem l ((SplitN_three_length_lt_iff l ',').2 hc)]

/-- C6: the number reported for a bad line is the value of `count`, which is 1 on the
second line of the file: a bad second line is reported as line 1, and a bad fourth line
as line 3. -/
theorem parseClipFile_reports_count :
    (∀ sem : Float64Sem, parseClipFile sem (some "header\nbad".toList)
      = some (.error (Fatal.couldNotParse 1 "bad".toList))) ∧
    parseClipFile Float64Sem.ref (some "header\n0,10,intro\n\nbad".toList)
      = some (.error (Fatal.couldNotParse 3 "bad".toList)) :=
  ⟨fun _ => rfl, rfl⟩

theorem ref_ordered : Float64Sem.ref.Ordered where
  total := by
    intro a b ha hb h
    cases a <;> cases b <;>
      simp_all [Float64Sem.ref, RefFloat.le, RefFloat.lt]
  le_add_one := by
    intro a ha
    cases a <;> simp_all [Float64Sem.ref, RefFloat.le, RefFloat.add]

/-- The line `NaN,5,x` gives a clip whose start is NaN and whose end is 5: `End >= Start`
is false. -/
theorem parseClip_end_ge_start_counterexample :
    parseClip Float64Sem.ref "NaN,5,x".toList
      = .ok (some { Start := RefFloat.nan, End := RefFloat.fin 5, Name := "x".toList }) ∧
    Float64Sem.ref.le RefFloat.nan (RefFloat.fin 5) = false :=
  ⟨rfl, rfl⟩

/-- C7 (amended): on a line with three fields the clip has the parsed first field as
`Start`, and as `End` the parsed second field unless that is less than `Start`, in which
case `Start + 1`; `End >= Start` follows when neither parsed timestamp is NaN. -/
theorem parseClip_end (sem : Float64Sem) (hord : sem.Ordered) (line : GoString)
    (h : 3 ≤ (SplitN line ',' 3).length) :
    ∃ (f0 f1 f2 : GoString) (st en : sem.F) (c : clip sem),
      SplitN line ',' 3 = [f0, f1, f2] ∧
      parseTimestamp sem f0 = .ok st ∧ parseTimestamp sem f1 = .ok en ∧
      parseClip sem line = .ok (some c) ∧
      c.Start = st ∧ c.End = (if sem.lt en st then sem.add st sem.one else en) ∧
      (sem.le st st = true → sem.le en en = true → sem.le c.Start c.End = true) := by
  have hc : 2 ≤ line.count ',' := by
    have := (SplitN_three_length_lt_iff line ',').not.1 (by omega)
    omega
  obtain ⟨f0, f1, f2, -, -, -, hf⟩ := exists_three_fields line ',' hc
  obtain ⟨st, hst⟩ := parseTimestamp_ok sem f0
  obtain ⟨en, hen⟩ := parseTimestamp_ok sem f1
  refine ⟨f0, f1, f2, st, en, _, hf, hst, hen,
    parseClip_of_fields sem line f0 f1 f2 st en hf hst hen, rfl, rfl, ?_⟩
  intro h1 h2
  show sem.le st (if sem.lt en st then sem.add st sem.one else en) = true
  cases hlt : sem.lt en st with
  | true => simpa using hord.le_add_one st h1
  | false => simpa using hord.total st en h1 h2 hlt

/-- The line `1:30,5,a,b`, whose end is before its start. -/
theorem parseClip_end_witness :
    ∃ (f0 f1 f2 : GoString) (st en : RefFloat) (c : clip Float64Sem.ref),
      SplitN "1:30,5,a,b".toList ',' 3 = [f0, f1, f2] ∧
      parseTimestamp Float64Sem.ref f0 = .ok st ∧ parseTimestamp Float64Sem.ref f1 = .ok en ∧
      parseClip Float64Sem.ref "1:30,5,a,b".toList = .ok (some c) ∧
      c.Start = st ∧ c.End = (if RefFloat.lt en st then RefFloat.add st (RefFloat.fin 1) else en) ∧
      (RefFloat.le st st = true → RefFloat.le en en = true →
        RefFloat.le c.Start c.End = true) :=
  parseClip_end Float64Sem.ref ref_ordered "1:30,5,a,b".toList (by decide)


/-- C9: a line with at least two commas is split at its first two commas only: the start
and end fields hold no comma, the name is all that follows the second comma, and the
three fields joined by commas give the line back. -/
theorem parseClip_splits_at_first_two_commas (sem : Float64Sem) (line : GoString)
    (h : 2 ≤ line.count ',') :
    ∃ (f0 f1 f2 : GoString) (c : clip sem),
      ',' ∉ f0 ∧ ',' ∉ f1 ∧ f0 ++ ',' :: (f1 ++ ',' :: f2) = line ∧
      SplitN line ',' 3 = [f0, f1, f2] ∧
      parseClip sem line = .ok (some c) ∧
      parseTimestamp sem f0 = .ok c.Start ∧
      (∃ en, parseTimestamp sem f1 = .ok en ∧
        c.End = if sem.lt en c.Start then sem.add c.Start sem.one else en) ∧
      c.Name = f2 ∧ c.Name = line.drop (f0.length + f1.length + 2) := by
  obtain ⟨f0, f1, f2, h0, h1, hl, hf⟩ := exists_three_fields line ',' h
  obtain ⟨st, hst⟩ := parseTimestamp_ok sem f0
  obtain ⟨en, hen⟩ := parseTimestamp_ok sem f1
  refine ⟨f0, f1, f2, _, h0, h1, hl.symm, hf,
    parseClip_of_fields sem line f0 f1 f2 st en hf hst hen, hst, ⟨en, hen, rfl⟩, rfl, ?_⟩
  show f2 = line.drop (f0.length + f1.length + 2)
  rw [hl]
  have e1 : f0.length + f1.length + 2 = f0.length + (f1.length + 1 + 1) := by omega
  rw [e1, List.drop_append, List.drop_succ_cons, List.drop_append]
  rfl


/-- The line `0, 1:30,intro, part 2` is split into `0`, ` 1:30` and `intro, part 2`. -/
theorem parseClip_splits_at_first_two_commas_witness :
    ∃ (f0 f1 f2 : GoString) (c : clip Float64Sem.ref),
      ',' ∉ f0 ∧ ',' ∉ f1 ∧ f0 ++ ',' :: (f1 ++ ',' :: f2) = "0, 1:30,intro, part 2".toList ∧
      SplitN "0, 1:30,intro, part 2".toList ',' 3 = [f0, f1, f2] ∧
      parseClip Float64Sem.ref "0, 1:30,intro, part 2".toList = .ok (some c) ∧
      parseTimestamp Float64Sem.ref f0 = .ok c.Start ∧
      (∃ en, parseTimestamp Float64Sem.ref f1 = .ok en ∧
        c.End = if Float64Sem.ref.lt en c.Start then
          Float64Sem.ref.add c.Start Float64Sem.ref.one else en) ∧
      c.Name = f2 ∧
      c.Name = "0, 1:30,intro, part 2".toList.drop (f0.length + f1.length + 2) :=
  parseClip_splits_at_first_two_commas Float64Sem.ref "0, 1:30,intro, part 2".toList (by decide)

theorem scan_full (pre : GoString) :
    ∀ tail : GoString, (∀ c ∈ pre, c ≠ '\n' ∧ c.utf8Size = 1) →
      scan pre.length (pre ++ tail) = .bufferFull pre tail := by
  induction pre with
  | nil => intro tail _; cases tail <;> simp [scan]
  | cons c cs ih =>
    intro tail h
    have hc := h c (by simp)
    rw [List.cons_append, List.length_cons, scan]
    simp only [Nat.succ_ne_zero, if_false, hc.1, hc.2, Nat.add_sub_cancel]
    rw [if_pos (by omega), ih tail (fun x hx => h x (by simp [hx]))]
    rfl

theorem scan_replicate (n : Nat) (tail : GoString) :
    scan n (List.replicate n 'h' ++ tail) = .bufferFull (List.replicate n 'h') tail := by
  have h := scan_full (List.replicate n 'h') tail (fun c hc => by
    rw [List.eq_of_mem_replicate hc]
    exact ⟨by decide, by decide⟩)
  rwa [List.length_replicate] at h

theorem getLast_replicate_succ (n : Nat) (c : Char) :
    (List.replicate (n + 1) c).getLast? = some c := by
  induction n with
  | zero => rfl
  | succ n ih =>
    rw [List.replicate_succ, List.replicate_succ, List.getLast?_cons_cons,
      ← List.replicate_succ]
    exact ih

theorem ReadLine_full (pre tail : GoString) (h : ∀ c ∈ pre, c ≠ '\n' ∧ c.utf8Size = 1)
    (hlen : pre.length = defaultBufSize) (hlast : pre.getLast? ≠ some '\r') :
    ReadLine (pre ++ tail) = .line pre tail := by
  unfold ReadLine
  rw [← hlen, scan_full pre tail h]
  simp only [if_neg hlast]

theorem ReadLine_replicate (tail : GoString) :
    ReadLine (List.replicate defaultBufSize 'h' ++ tail)
      = .line (List.replicate defaultBufSize 'h') tail := by
  have hlast : (List.replicate defaultBufSize 'h').getLast? = some 'h' :=
    getLast_replicate_succ 4095 'h'
  apply ReadLine_full
  · intro c hc
    rw [List.eq_of_mem_replicate hc]
    exact ⟨by decide, by decide⟩
  · exact List.length_replicate _ _
  · rw [hlast]; decide

/-- C10: a first line longer than the 4096-byte buffer is discarded only up to its
4096th byte.  Here the manifest has one data line, `0,10,intro`, and two clips come
back: the first one is read from the end of the first line. -/
theorem parseClipFile_long_first_line :
    parseClipFile Float64Sem.ref
        (some (List.replicate defaultBufSize 'h' ++ "1,2,x\n0,10,intro".toList))
      = some (.ok [
          { Start := RefFloat.fin 1, End := RefFloat.fin 2, Name := "x".toList },
          { Start := RefFloat.fin 0, End := RefFloat.fin 10, Name := "intro".toList }]) := by
  unfold parseClipFile
  simp only [ReadLine_replicate, List.length_append, List.length_replicate]
  rfl

theorem utf8Size_le_four (c : Char) : c.utf8Size ≤ 4 := by
  unfold Char.utf8Size
  simp only
  split_ifs <;> omega

theorem scan_spec (room : Nat) (s : GoString) :
    match scan room s with
    | .delim line rest => s = line ++ '\n' :: rest
    | .bufferFull buf rest => s = buf ++ rest ∧ room < 4 * buf.length + 4
    | .atEOF line => s = line
    | .cut => True := by
  induction s generalizing room with
  | nil =>
    unfold scan
    by_cases h : room = 0 <;> simp [h]
  | cons c cs ih =>
    unfold scan
    by_cases h0 : room = 0
    · simp [h0]
    · by_cases hnl : c = '\n'
      · simp [h0, hnl]
      · by_cases hfit : c.utf8Size ≤ room
        · simp only [h0, hnl, hfit, if_false, if_true]
          have := ih (room - c.utf8Size)
          have h4 := utf8Size_le_four c
          cases hsc : scan (room - c.utf8Size) cs with
          | delim line rest => simp only [hsc] at this; simp [Scan.push, this]
          | bufferFull buf rest =>
            simp only [hsc] at this
            simp only [Scan.push, List.cons_append, List.length_cons]
            refine ⟨by rw [this.1], ?_⟩
            omega
          | atEOF line => simp only [hsc] at this; simp [Scan.push, this]
          | cut => simp [Scan.push]
        · simp only [h0, hnl, hfit, if_false]

theorem scan_ne_cut (s : GoString) :
    ∀ room : Nat, (∀ c ∈ s, c.utf8Size = 1) → scan room s ≠ .cut := by
  induction s with
  | nil =>
    intro room _
    unfold scan
    by_cases h : room = 0 <;> simp [h]
  | cons c cs ih =>
    intro room h
    have hc := h c (by simp)
    unfold scan
    by_cases h0 : room = 0
    · simp [h0]
    · by_cases hnl : c = '\n'
      · simp [h0, hnl]
      · have hfit : c.utf8Size ≤ room := by omega
        simp only [h0, hnl, hfit, if_false, if_true]
        have := ih (room - c.utf8Size) (fun x hx => h x (by simp [hx]))
        cases hsc : scan (room - c.utf8Size) cs with
        | cut => exact absurd hsc this
        | delim line rest => simp [Scan.push]
        | bufferFull buf rest => simp [Scan.push]
        | atEOF line => simp [Scan.push]

theorem ReadLine_ne_cut (s : GoString) (h : ∀ c ∈ s, c.utf8Size = 1) : ReadLine s ≠ .cut := by
  unfold ReadLine
  have := scan_ne_cut s defaultBufSize h
  cases hsc : scan defaultBufSize s with
  | cut => exact absurd hsc this
  | delim line rest => simp
  | bufferFull buf rest => simp only; split_ifs <;> simp
  | atEOF line => simp only; split_ifs <;> simp

theorem ReadLine_rest (s l rest : GoString) (h : ReadLine s = .line l rest) :
    rest.length < s.length ∧ ∀ c ∈ rest, c ∈ s := by
  unfold ReadLine at h
  have hs := scan_spec defaultBufSize s
  cases hsc : scan defaultBufSize s with
  | delim line r =>
    simp only [hsc] at h hs
    simp only [Line.line.injEq] at h
    rw [hs, ← h.2]
    refine ⟨by rw [List.length_append, List.length_cons]; omega, fun c hc => by simp [hc]⟩
  | bufferFull buf r =>
    simp only [hsc] at h hs
    have hlen : 1023 < buf.length := by
      have := hs.2
      unfold defaultBufSize at this
      omega
    rw [hs.1, List.length_append]
    split_ifs at h with hlast
    · simp only [Line.line.injEq] at h
      rw [← h.2, List.length_cons]
      refine ⟨by omega, fun c hc => ?_⟩
      rcases List.mem_cons.1 hc with rfl | hc2
      · exact List.mem_append_left _ (List.mem_of_getLast?_eq_some hlast)
      · exact List.mem_append_right _ hc2
    · simp only [Line.line.injEq] at h
      rw [← h.2]
      exact ⟨by omega, fun c hc => List.mem_append_right _ hc⟩
  | atEOF line =>
    simp only [hsc] at h hs
    split_ifs at h with he
    simp only [Line.line.injEq] at h
    rw [← h.2, hs]
    refine ⟨?_, fun c hc => by simp at hc⟩
    cases line with
    | nil => exact absurd rfl he
    | cons a as => simp
  | cut => simp [hsc] at h

theorem ReadLine_shorter (s l rest : GoString) (h : ReadLine s = .line l rest) :
    rest.length < s.length :=
  (ReadLine_rest s l rest h).1

theorem loop_fuel_enough (sem : Float64Sem) (fuel : Nat) :
    ∀ (rest : GoString) (count : Nat) (clips : List (clip sem)), rest.length < fuel →
      (∀ c ∈ rest, c.utf8Size = 1) →
      ∃ r, parseClipFile.loop sem fuel rest count clips = some r := by
  induction fuel with
  | zero => intro rest count clips h; omega
  | succ fuel ih =>
    intro rest count clips h hone
    unfold parseClipFile.loop
    cases hr : ReadLine rest with
    | eof => exact ⟨_, rfl⟩
    | cut => exact absurd hr (ReadLine_ne_cut rest hone)
    | line l rest2 =>
      obtain ⟨hshort, hmem⟩ := ReadLine_rest rest l rest2 hr
      have hone2 : ∀ c ∈ rest2, c.utf8Size = 1 := fun c hc => hone c (hmem c hc)
      simp only
      by_cases hb : blankToEmpty l = []
      · simp only [hb, if_true]
        exact ih _ _ _ (by omega) hone2
      · simp only [hb, if_false]
        obtain ⟨oc, hp⟩ := parseClip_ok sem (blankToEmpty l)
        cases oc with
        | none => exact ⟨_, by rw [hp]⟩
        | some c =>
          rw [hp]
          exact ih _ _ _ (by omega) hone2

/-- On a manifest whose characters all take one byte, `parseClipFile` ends: it returns
the clips or ends the run. -/
theorem parseClipFile_total (sem : Float64Sem) (content : GoString)
    (hone : ∀ c ∈ content, c.utf8Size = 1) :
    ∃ r, parseClipFile sem (some content) = some r := by
  unfold parseClipFile
  cases hr : ReadLine content with
  | eof =>
    simp only [hr]
    exact loop_fuel_enough sem _ _ _ _ (Nat.lt_succ_self _) hone
  | cut => exact absurd hr (ReadLine_ne_cut content hone)
  | line l rest =>
    obtain ⟨hshort, hmem⟩ := ReadLine_rest content l rest hr
    simp only [hr]
    exact loop_fuel_enough sem _ _ _ _ (by omega) (fun c hc => hone c (hmem c hc))

theorem scan_line (l : GoString) :
    ∀ (room : Nat) (rest : GoString), '\n' ∉ l → (l.map Char.utf8Size).sum < room →
      scan room (l ++ '\n' :: rest) = .delim l rest := by
  induction l with
  | nil =>
    intro room rest _ hroom
    have h0 : room ≠ 0 := by simp at hroom; omega
    simp [scan, h0]
  | cons c cs ih =>
    intro room rest hnl hroom
    simp only [List.map_cons, List.sum_cons] at hroom
    have h0 : room ≠ 0 := by omega
    have hc : ¬ c = '\n' := fun e => hnl (by simp [e])
    have hcs : '\n' ∉ cs := fun e => hnl (by simp [e])
    rw [List.cons_append, scan]
    simp only [h0, hc, if_false]
    rw [if_pos (by omega), ih (room - c.utf8Size) rest hcs (by omega)]
    rfl

theorem scan_end (l : GoString) :
    ∀ (room : Nat), '\n' ∉ l → (l.map Char.utf8Size).sum < room → scan room l = .atEOF l := by
  induction l with
  | nil =>
    intro room _ hroom
    have h0 : room ≠ 0 := by simp at hroom; omega
    simp [scan, h0]
  | cons c cs ih =>
    intro room hnl hroom
    simp only [List.map_cons, List.sum_cons] at hroom
    have h0 : room ≠ 0 := by omega
    have hc : ¬ c = '\n' := fun e => hnl (by simp [e])
    have hcs : '\n' ∉ cs := fun e => hnl (by simp [e])
    rw [scan]
    simp only [h0, hc, if_false]
    rw [if_pos (by omega), ih (room - c.utf8Size) hcs (by omega)]
    rfl

theorem ReadLine_whole (l rest : GoString) (h : WholeLine l) :
    ReadLine (l ++ '\n' :: rest) = .line l rest := by
  unfold ReadLine
  rw [scan_line l defaultBufSize rest h.1 h.2.2]
  simp only [if_neg h.2.1]

theorem ReadLine_whole_end (l : GoString) (h : WholeLine l) (hne : l ≠ []) :
    ReadLine l = .line l [] := by
  unfold ReadLine
  rw [scan_end l defaultBufSize h.1 h.2.2]
  simp only [if_neg hne]

theorem ReadLine_nil : ReadLine [] = .eof := rfl

theorem clipsOf_cons_blank (sem : Float64Sem) (l : GoString) (ls : List GoString)
    (h : l.all isSpace = true) : clipsOf sem (l :: ls) = clipsOf sem ls := by
  unfold clipsOf
  rw [List.filterMap_cons]
  simp only [h, if_true]

theorem clipsOf_cons_clip (sem : Float64Sem) (l : GoString) (ls : List GoString) (c : clip sem)
    (h : l.all isSpace = false) (hc : parseClip sem l = .ok (some c)) :
    clipsOf sem (l :: ls) = c :: clipsOf sem ls := by
  unfold clipsOf
  rw [List.filterMap_cons]
  simp only [h, hc, Bool.false_eq_true, if_false]

theorem blankToEmpty_of_blank (l : GoString) (h : l.all isSpace = true) :
    blankToEmpty l = [] := by
  simp [blankToEmpty, h]

theorem loop_line (sem : Float64Sem) (fuel : Nat) (text l rest : GoString) (count : Nat)
    (clips : List (clip sem)) (hread : ReadLine text = .line l rest)
    (hparse : l.all isSpace = false → ∃ c, parseClip sem l = .ok (some c)) :
    parseClipFile.loop sem (fuel + 1) text count clips
      = parseClipFile.loop sem fuel rest (count + 1) (clips ++ clipsOf sem [l]) := by
  have hnil : clipsOf sem [] = [] := rfl
  conv_lhs => unfold parseClipFile.loop
  simp only [hread]
  cases hb : l.all isSpace with
  | true =>
    simp only [blankToEmpty_of_blank l hb, if_true, clipsOf_cons_blank sem l [] hb, hnil,
      List.append_nil]
  | false =>
    obtain ⟨c, hc⟩ := hparse hb
    simp only [blankToEmpty_of_not_blank l hb, not_blank_ne_nil l hb, if_false, hc,
      clipsOf_cons_clip sem l [] c hb hc, hnil]

theorem loop_whole_lines (sem : Float64Sem) (ls : List GoString) :
    ∀ (last : GoString) (fuel count : Nat) (clips : List (clip sem)),
      (∀ l ∈ ls ++ [last], WholeLine l) →
      (∀ l ∈ ls ++ [last], l.all isSpace = false → ∃ c, parseClip sem l = .ok (some c)) →
      (unlines ls ++ last).length < fuel →
      parseClipFile.loop sem fuel (unlines ls ++ last) count clips
        = some (.ok (clips ++ clipsOf sem (ls ++ [last]))) := by
  induction ls with
  | nil =>
    intro last fuel count clips hw hp hfuel
    simp only [unlines, List.nil_append] at hfuel ⊢
    cases last with
    | nil =>
      obtain ⟨f, rfl⟩ : ∃ f, fuel = f + 1 := ⟨fuel - 1, by omega⟩
      simp [parseClipFile.loop, ReadLine_nil, clipsOf]
    | cons a as =>
      simp only [List.length_cons] at hfuel
      obtain ⟨f, rfl⟩ : ∃ f, fuel = f + 1 + 1 := ⟨fuel - 2, by omega⟩
      have hwl := hw (a :: as) (by simp)
      rw [loop_line sem (f + 1) (a :: as) (a :: as) [] count clips
        (ReadLine_whole_end _ hwl (by simp)) (hp (a :: as) (by simp))]
      simp [parseClipFile.loop, ReadLine_nil]
  | cons l ls ih =>
    intro last fuel count clips hw hp hfuel
    simp only [unlines, List.cons_append, List.append_assoc, List.length_append,
      List.length_cons] at hfuel ⊢
    obtain ⟨f, rfl⟩ : ∃ f, fuel = f + 1 := ⟨fuel - 1, by omega⟩
    have hwl := hw l (by simp)
    rw [loop_line sem f _ l (unlines ls ++ last) count clips
      (ReadLine_whole l _ hwl) (hp l (by simp))]
    rw [ih last f (count + 1) _ (fun x hx => hw x (by simp at hx ⊢; tauto))
      (fun x hx => hp x (by simp at hx ⊢; tauto))
      (by simp only [List.length_append]; omega)]
    have happ : clipsOf sem (l :: (ls ++ [last])) = clipsOf sem [l] ++ clipsOf sem (ls ++ [last]) :=
      List.filterMap_append [l] (ls ++ [last]) _
    rw [happ, List.append_assoc]

/-- When every line of the manifest fits in the buffer and every line after the first
that is not blank parses, `parseClipFile` returns the clips of those lines, in order;
the first line is skipped whatever it holds. -/
theorem parseClipFile_whole_lines (sem : Float64Sem) (header : GoString) (ls : List GoString)
    (last : GoString) (hh : WholeLine header) (hw : ∀ l ∈ ls ++ [last], WholeLine l)
    (hp : ∀ l ∈ ls ++ [last], l.all isSpace = false → ∃ c, parseClip sem l = .ok (some c)) :
    parseClipFile sem (some (unlines (header :: ls) ++ last))
      = some (.ok (clipsOf sem (ls ++ [last]))) := by
  unfold parseClipFile
  simp only [unlines, List.cons_append, List.append_assoc, ReadLine_whole header _ hh]
  rw [loop_whole_lines sem ls last _ 1 [] hw hp
    (by simp only [List.length_append, List.length_cons]; omega)]
  rfl

theorem length_le_length_unlines (ls : List GoString) : ls.length ≤ (unlines ls).length := by
  induction ls with
  | nil => simp [unlines]
  | cons l ls ih =>
    simp only [unlines, List.length_cons, List.length_append]
    omega

theorem loop_through_lines (sem : Float64Sem) (ls : List GoString) :
    ∀ (text : GoString) (fuel count : Nat) (clips : List (clip sem)),
      (∀ l ∈ ls, WholeLine l) →
      (∀ l ∈ ls, l.all isSpace = false → ∃ c, parseClip sem l = .ok (some c)) →
      parseClipFile.loop sem (fuel + ls.length) (unlines ls ++ text) count clips
        = parseClipFile.loop sem fuel text (count + ls.length) (clips ++ clipsOf sem ls) := by
  induction ls with
  | nil =>
    intro text fuel count clips _ _
    have hnil : clipsOf sem [] = [] := rfl
    simp [unlines, hnil]
  | cons l ls ih =>
    intro text fuel count clips hw hp
    have hwl := hw l (by simp)
    have hfuel : fuel + (l :: ls).length = fuel + ls.length + 1 := by simp; omega
    have happ : clipsOf sem (l :: ls) = clipsOf sem [l] ++ clipsOf sem ls :=
      List.filterMap_append [l] ls _
    simp only [unlines, List.cons_append, List.append_assoc]
    rw [hfuel, loop_line sem _ _ l (unlines ls ++ text) count clips
      (ReadLine_whole l _ hwl) (hp l (by simp)),
      ih text fuel (count + 1) _ (fun x hx => hw x (by simp [hx]))
        (fun x hx => hp x (by simp [hx])),
      happ, List.append_assoc, List.length_cons]
    congr 1
    omega

/-- When the lines before a bad line fit in the buffer and are blank or parse, the
number reported for the bad line is the number of lines between the first line and the
bad line, plus one: one less than the number of the bad line in the file. -/
theorem parseClipFile_bad_line_count (sem : Float64Sem) (header bad rest : GoString)
    (ls : List GoString) (hh : WholeLine header) (hw : ∀ l ∈ ls, WholeLine l)
    (hp : ∀ l ∈ ls, l.all isSpace = false → ∃ c, parseClip sem l = .ok (some c))
    (hb : WholeLine bad) (hblank : bad.all isSpace = false) (hfew : bad.count ',' < 2) :
    parseClipFile sem (some (unlines (header :: ls) ++ (bad ++ '\n' :: rest)))
      = some (.error (Fatal.couldNotParse (ls.length + 1) bad)) := by
  unfold parseClipFile
  simp only [unlines, List.cons_append, List.append_assoc, ReadLine_whole header _ hh]
  have hlen := length_le_length_unlines ls
  obtain ⟨f, hf⟩ : ∃ f, (header ++ '\n' :: (unlines ls ++ (bad ++ '\n' :: rest))).length + 1
      = f + 1 + ls.length := by
    refine ⟨(header ++ '\n' :: (unlines ls ++ (bad ++ '\n' :: rest))).length - ls.length, ?_⟩
    simp only [List.length_append, List.length_cons]
    omega
  rw [hf, loop_through_lines sem ls _ (f + 1) 1 [] hw hp, parseClipFile.loop]
  simp only [ReadLine_whole bad rest hb, blankToEmpty_of_not_blank bad hblank,
    not_blank_ne_nil bad hblank, if_false,
    parseClip_of_few_fields sem bad ((SplitN_three_length_lt_iff bad ',').2 hfew)]
  rw [Nat.add_comm 1 ls.length]


/-! ## A data line that does not fit in the buffer -/

theorem sum_utf8Size_of_one (s : GoString) (h : ∀ c ∈ s, c.utf8Size = 1) :
    (s.map Char.utf8Size).sum = s.length := by
  induction s with
  | nil => rfl
  | cons c cs ih =>
    rw [List.map_cons, List.sum_cons, h c (by simp), ih (fun x hx => h x (by simp [hx])),
      List.length_cons]
    omega

theorem parseClipFile_cut_line (X Y : GoString) (hX : ∀ c ∈ X, c = 'a')
    (hXlen : X.length = 4092) (hY : ∀ c ∈ Y, c = 'a') (hYne : Y ≠ [])
    (hYlen : Y.length < 4096) :
    parseClipFile Float64Sem.ref (some ("h\n0,1,".toList ++ (X ++ Y)))
      = some (.error (Fatal.couldNotParse 2 Y)) := by
  have ha1 : ¬ 'a' = '\n' := by decide
  have ha2 : Char.utf8Size 'a' = 1 := by decide
  have ha3 : isSpace 'a' = false := by decide
  have ha4 : ¬ 'a' = ',' := by decide
  have ha5 : ¬ 'a' = '\r' := by decide
  have hcontent : "h\n0,1,".toList ++ (X ++ Y)
      = ['h'] ++ '\n' :: (("0,1,".toList ++ X) ++ Y) := by
    simp [List.append_assoc]
  have hwh : WholeLine ['h'] := ⟨by decide, by decide, by decide⟩
  have hpre : ∀ c ∈ "0,1,".toList ++ X, c ≠ '\n' ∧ c.utf8Size = 1 := by
    intro c hc
    rcases List.mem_append.1 hc with h1 | h1
    · have : c = '0' ∨ c = ',' ∨ c = '1' := by
        simp at h1
        tauto
      rcases this with rfl | rfl | rfl <;> exact ⟨by decide, by decide⟩
    · rw [hX c h1]; exact ⟨ha1, ha2⟩
  have hXne : X ≠ [] := by
    intro e
    rw [e] at hXlen
    simp at hXlen
  have hprelast : ("0,1,".toList ++ X).getLast? ≠ some '\r' := by
    rw [List.getLast?_append_of_ne_nil _ hXne]
    intro e
    exact ha5 (hX _ (List.mem_of_getLast?_eq_some e)).symm
  have hprelen : ("0,1,".toList ++ X).length = defaultBufSize := by
    rw [List.length_append, hXlen]
    rfl
  have hread1 := ReadLine_full ("0,1,".toList ++ X) Y hpre hprelen hprelast
  have hsplit : SplitN ("0,1,".toList ++ X) ',' 3 = ["0".toList, "1".toList, X] := by
    have e : "0,1,".toList ++ X = "0".toList ++ ',' :: ("1".toList ++ ',' :: X) := rfl
    rw [e, SplitN_append_sep _ _ ',' 1 (by decide), SplitN_append_sep _ _ ',' 0 (by decide)]
    rfl
  have hparse1 : parseClip Float64Sem.ref ("0,1,".toList ++ X)
      = .ok (some { Start := RefFloat.fin 0, End := RefFloat.fin 1, Name := X }) :=
    parseClip_of_fields Float64Sem.ref _ _ _ _ (RefFloat.fin 0) (RefFloat.fin 1) hsplit rfl rfl
  have hwY : WholeLine Y := by
    refine ⟨fun h => ha1 (hY _ h).symm, ?_, ?_⟩
    · intro e
      exact ha5 (hY _ (List.mem_of_getLast?_eq_some e)).symm
    · rw [sum_utf8Size_of_one Y (fun c hc => by rw [hY c hc]; exact ha2)]
      exact hYlen
  have hYblank : Y.all isSpace = false := by
    cases Y with
    | nil => exact absurd rfl hYne
    | cons c cs =>
      have : c = 'a' := hY c (by simp)
      simp [this, ha3]
  have hYcount : Y.count ',' < 2 := by
    rw [List.count_eq_zero_of_not_mem (fun h => ha4 (hY _ h).symm)]
    omega
  obtain ⟨f, hf⟩ : ∃ f, ("h\n0,1,".toList ++ (X ++ Y)).length + 1 = f + 1 + 1 :=
    ⟨("h\n0,1,".toList ++ (X ++ Y)).length - 1, by simp [List.length_append]⟩
  unfold parseClipFile
  simp only [hf]
  rw [hcontent, ReadLine_whole ['h'] _ hwh]
  simp only
  rw [loop_line Float64Sem.ref (f + 1) _ _ Y 1 [] hread1 (fun _ => ⟨_, hparse1⟩),
    parseClipFile.loop]
  simp only [ReadLine_whole_end Y hwY hYne, blankToEmpty_of_not_blank Y hYblank, hYne,
    if_false, parseClip_of_few_fields Float64Sem.ref Y
      ((SplitN_three_length_lt_iff Y ',').2 hYcount)]

/-- C5: the data line `0,1,` followed by 5000 times `a` has two commas and three fields,
and `parseClip` gives a clip for it; yet `parseClipFile` ends the run on it, because
`ReadLine` hands it over in two pieces and the second piece, 908 times `a`, has no
comma. -/
theorem parseClipFile_long_data_line :
    ("0,1,".toList ++ List.replicate 5000 'a').count ',' = 2 ∧
    parseClip Float64Sem.ref ("0,1,".toList ++ List.replicate 5000 'a')
      = .ok (some { Start := RefFloat.fin 0, End := RefFloat.fin 1,
                    Name := List.replicate 5000 'a' }) ∧
    parseClipFile Float64Sem.ref (some ("h\n0,1,".toList ++ List.replicate 5000 'a'))
      = some (.error (Fatal.couldNotParse 2 (List.replicate 908 'a'))) := by
  have hsplit : SplitN ("0,1,".toList ++ List.replicate 5000 'a') ',' 3
      = ["0".toList, "1".toList, List.replicate 5000 'a'] := by
    have e : "0,1,".toList ++ List.replicate 5000 'a'
        = "0".toList ++ ',' :: ("1".toList ++ ',' :: List.replicate 5000 'a') := rfl
    rw [e, SplitN_append_sep _ _ ',' 1 (by decide), SplitN_append_sep _ _ ',' 0 (by decide)]
    rfl
  refine ⟨?_, ?_, ?_⟩
  · rw [List.count_append, List.count_replicate]
    rfl
  · exact parseClip_of_fields Float64Sem.ref _ _ _ _ (RefFloat.fin 0) (RefFloat.fin 1)
      hsplit rfl rfl
  · have h5000 : List.replicate 5000 'a'
        = List.replicate 4092 'a' ++ List.replicate 908 'a' :=
      List.replicate_add 4092 908 'a'
    rw [h5000]
    exact parseClipFile_cut_line _ _ (fun c hc => List.eq_of_mem_replicate hc)
      (List.length_replicate _ _) (fun c hc => List.eq_of_mem_replicate hc)
      (fun e => by
        have h0 := congrArg List.length e
        rw [List.length_replicate] at h0
        exact absurd h0 (by decide))
      (by rw [List.length_replicate]; omega)

/-! ## Sanitized names -/

theorem ReplaceAllString_one (re : Char → Bool) (r : Char) (s : GoString) :
    ReplaceAllString re s [r] = s.map (fun c => if re c then r else c) := by
  induction s with
  | nil => rfl
  | cons c cs ih =>
    rw [ReplaceAllString, ih]
    by_cases h : re c = true <;> simp [h]

theorem sanitizeName_eq_map (s : GoString) :
    sanitizeName s = s.map (fun c => if filenameSanitizer c then '_' else c) :=
  ReplaceAllString_one filenameSanitizer '_' s

/-- C11: the sanitized name has as many characters as the name, and its character at
every position is `_` where the name has a whitespace character or one of `<`, `>`,
`:`, double quote, `/`, backslash, `|`, `*`, `?`, and the character of the name
elsewhere. -/
theorem sanitizeName_chars (s : GoString) :
    (sanitizeName s).length = s.length ∧
    (∀ i : Nat, (sanitizeName s)[i]? =
      (s[i]?).map (fun c => if filenameSanitizer c then '_' else c)) ∧
    (∀ c : Char, filenameSanitizer c = true ↔
      (c = '\t' ∨ c = '\n' ∨ c = Char.ofNat 12 ∨ c = '\r' ∨ c = ' ') ∨
      c ∈ ['<', '>', ':', Char.ofNat 34, '/', Char.ofNat 92, '|', '*', '?']) := by
  refine ⟨?_, ?_, ?_⟩
  · rw [sanitizeName_eq_map, List.length_map]
  · intro i
    rw [sanitizeName_eq_map, List.getElem?_map]
  · intro c
    simp [filenameSanitizer, isSpace, or_assoc]

theorem sanitizeName_fixed (s : GoString) (h : ∀ c ∈ s, filenameSanitizer c = false) :
    sanitizeName s = s := by
  rw [sanitizeName_eq_map]
  conv_rhs => rw [← List.map_id s]
  apply List.map_congr_left
  intro c hc
  simp [h c hc]

theorem filenameSanitizer_sanitizeName (s : GoString) :
    ∀ c ∈ sanitizeName s, filenameSanitizer c = false := by
  intro c hc
  rw [sanitizeName_eq_map, List.mem_map] at hc
  obtain ⟨a, -, rfl⟩ := hc
  by_cases h : filenameSanitizer a = true
  · simp only [h, if_true]; decide
  · simp only [h, if_false]
    simpa using h

/-- C12: sanitizing a sanitized name changes nothing. -/
theorem sanitizeName_idempotent (s : GoString) :
    sanitizeName (sanitizeName s) = sanitizeName s :=
  sanitizeName_fixed _ (filenameSanitizer_sanitizeName s)

/-! ## The names `findNextName` tries -/

theorem toNat_digit (d : Nat) (h : d < 10) : (Char.ofNat (48 + d)).toNat - 48 = d := by
  interval_cases d <;> rfl

theorem decimalValue_append (ds : GoString) (c : Char) :
    decimalValue (ds ++ [c]) = decimalValue ds * 10 + (c.toNat - 48) := by
  simp [decimalValue, List.foldl_append]

theorem decimalValue_digits (fuel : Nat) :
    ∀ n : Nat, n < fuel → decimalValue (FormatInt.digits fuel n) = n := by
  induction fuel with
  | zero => intro n h; omega
  | succ fuel ih =>
    intro n h
    unfold FormatInt.digits
    by_cases h10 : n < 10
    · simp only [h10, if_true]
      simpa [decimalValue] using toNat_digit n h10
    · simp only [h10, if_false]
      rw [decimalValue_append, ih (n / 10) (by omega), toNat_digit (n % 10) (by omega)]
      omega

theorem decimalValue_FormatInt (n : Nat) : decimalValue (FormatInt n) = n :=
  decimalValue_digits (n + 1) n (Nat.lt_succ_self n)

theorem FormatInt_injective (a b : Nat) (h : FormatInt a = FormatInt b) : a = b := by
  rw [← decimalValue_FormatInt a, ← decimalValue_FormatInt b, h]

theorem FormatInt_ne_nil (n : Nat) : FormatInt n ≠ [] := by
  unfold FormatInt
  rw [FormatInt.digits]
  by_cases h10 : n < 10 <;> simp [h10]

theorem Ext_scan_suffix (rev : GoString) :
    ∀ acc : GoString, ∃ pre, rev.reverse ++ acc = pre ++ Ext.scan rev acc := by
  induction rev with
  | nil => intro acc; exact ⟨acc, by simp [Ext.scan]⟩
  | cons c rev ih =>
    intro acc
    unfold Ext.scan
    by_cases hs : c = '/'
    · exact ⟨(c :: rev).reverse ++ acc, by simp [hs]⟩
    · by_cases hd : c = '.'
      · exact ⟨rev.reverse, by simp [hs, hd]⟩
      · obtain ⟨pre, hpre⟩ := ih (c :: acc)
        exact ⟨pre, by simp only [hs, hd, if_false]; rw [← hpre]; simp⟩

theorem Ext_suffix (p : GoString) : ∃ pre, p = pre ++ Ext p := by
  obtain ⟨pre, h⟩ := Ext_scan_suffix p.reverse []
  exact ⟨pre, by simpa [Ext] using h⟩

theorem HasSuffix_append (pre suffix : GoString) : HasSuffix (pre ++ suffix) suffix = true := by
  simp [HasSuffix]

theorem TrimSuffix_append (pre suffix : GoString) : TrimSuffix (pre ++ suffix) suffix = pre := by
  simp [TrimSuffix, HasSuffix_append]

theorem TrimSuffix_Ext (p : GoString) : TrimSuffix p (Ext p) ++ Ext p = p := by
  obtain ⟨pre, h⟩ := Ext_suffix p
  have h2 := TrimSuffix_append pre (Ext p)
  rw [← h] at h2
  rw [h2, ← h]

theorem candidate_zero (p : GoString) : candidate p 0 = p := rfl

theorem candidate_succ (p : GoString) (k : Nat) :
    candidate p (k + 1) = TrimSuffix p (Ext p) ++ FormatInt (k + 2) ++ Ext p := by
  simp [candidate]

theorem candidate_injective (p : GoString) (a b : Nat) (h : candidate p a = candidate p b) :
    a = b := by
  have key : ∀ k : Nat, candidate p 0 ≠ candidate p (k + 1) := by
    intro k hk
    rw [candidate_succ, candidate_zero] at hk
    have hp := TrimSuffix_Ext p
    rw [List.append_assoc] at hk
    conv_lhs at hk => rw [← hp]
    have h2 := List.append_cancel_left hk
    have h3 : FormatInt (k + 2) = [] := by
      have hlen := congrArg List.length h2
      simp only [List.length_append] at hlen
      exact List.length_eq_zero.1 (by omega)
    exact FormatInt_ne_nil _ h3
  cases a with
  | zero =>
    cases b with
    | zero => rfl
    | succ b => exact absurd h (key b)
  | succ a =>
    cases b with
    | zero => exact absurd h.symm (key a)
    | succ b =>
      rw [candidate_succ, candidate_succ, List.append_assoc, List.append_assoc] at h
      have h2 := List.append_cancel_right (List.append_cancel_left h)
      have := FormatInt_injective _ _ h2
      omega

theorem loop_found (stat : GoString → StatResult) (p : GoString) (n : Nat) :
    ∀ (j fuel : Nat), (∀ i, i < n → stat (candidate p (j + i)) = .found) →
      findNextName.loop stat (fuel + n) (TrimSuffix p (Ext p)) (Ext p) (j + 1) (candidate p j)
        = findNextName.loop stat fuel (TrimSuffix p (Ext p)) (Ext p) (j + n + 1)
            (candidate p (j + n)) := by
  induction n with
  | zero => intro j fuel _; rfl
  | succ n ih =>
    intro j fuel h
    have h0 : stat (candidate p j) = .found := by simpa using h 0 (by omega)
    have hstep : fuel + (n + 1) = fuel + n + 1 := by omega
    rw [hstep, findNextName.loop]
    simp only [h0]
    rw [← candidate_succ p j, ih (j + 1) fuel (fun i hi => by
      have := h (i + 1) (by omega)
      rwa [show j + (i + 1) = j + 1 + i by omega] at this)]
    rw [show j + 1 + n = j + (n + 1) by omega]

theorem loop_out_of_fuel (stat : GoString → StatResult) (p : GoString) (fuel : Nat) :
    ∀ (j : Nat), (∀ i, i < fuel → stat (candidate p (j + i)) = .found) →
      findNextName.loop stat fuel (TrimSuffix p (Ext p)) (Ext p) (j + 1) (candidate p j)
        = none := by
  intro j h
  have := loop_found stat p fuel j 0 h
  rw [Nat.zero_add] at this
  rw [this]
  rfl

theorem loop_exit (stat : GoString → StatResult) (p : GoString) (fuel : Nat) :
    ∀ (j : Nat) (res : Except Halt GoString),
      findNextName.loop stat fuel (TrimSuffix p (Ext p)) (Ext p) (j + 1) (candidate p j)
        = some res →
      ∃ k, j ≤ k ∧ k < j + fuel ∧ (∀ i, j ≤ i → i < k → stat (candidate p i) = .found) ∧
        ((res = .ok (candidate p k) ∧ stat (candidate p k) = .notExist) ∨
         (res = .error (Halt.stat (candidate p k)) ∧ stat (candidate p k) = .failed)) := by
  induction fuel with
  | zero => intro j res h; simp [findNextName.loop] at h
  | succ fuel ih =>
    intro j res h
    rw [findNextName.loop] at h
    cases hs : stat (candidate p j) with
    | failed =>
      simp only [hs, Option.some.injEq] at h
      exact ⟨j, le_refl j, by omega, fun i h1 h2 => by omega, Or.inr ⟨h.symm, hs⟩⟩
    | notExist =>
      simp only [hs, Option.some.injEq] at h
      exact ⟨j, le_refl j, by omega, fun i h1 h2 => by omega, Or.inl ⟨h.symm, hs⟩⟩
    | found =>
      simp only [hs] at h
      rw [← candidate_succ p j] at h
      obtain ⟨k, hk1, hk2, hk3, hk4⟩ := ih (j + 1) res h
      refine ⟨k, by omega, by omega, fun i h1 h2 => ?_, hk4⟩
      by_cases hij : i = j
      · rw [hij]; exact hs
      · exact hk3 i (by omega) h2

theorem findNextName_eq_loop (stat : GoString → StatResult) (fuel : Nat) (p : GoString) :
    findNextName stat fuel p
      = findNextName.loop stat fuel (TrimSuffix p (Ext p)) (Ext p) (0 + 1) (candidate p 0) := by
  simp only [findNextName, candidate_zero, TrimSuffix_Ext]

theorem findNextName_first_free (stat : GoString → StatResult) (p : GoString) (k fuel : Nat)
    (hfound : ∀ j, j < k → stat (candidate p j) = .found)
    (hfree : stat (candidate p k) = .notExist) (hfuel : k < fuel) :
    findNextName stat fuel p = some (.ok (candidate p k)) := by
  obtain ⟨f, rfl⟩ : ∃ f, fuel = f + 1 + k := ⟨fuel - 1 - k, by omega⟩
  rw [findNextName_eq_loop, loop_found stat p k 0 (f + 1) (fun i hi => by simpa using hfound i hi)]
  simp only [Nat.zero_add]
  rw [findNextName.loop]
  simp only [hfree]

theorem findNextName_none (stat : GoString → StatResult) (p : GoString) (k fuel : Nat)
    (hfound : ∀ j, j < k → stat (candidate p j) = .found) (hfuel : fuel ≤ k) :
    findNextName stat fuel p = none := by
  rw [findNextName_eq_loop]
  exact loop_out_of_fuel stat p fuel 0 (fun i hi => by simpa using hfound i (by omega))

theorem findNextName_exit (stat : GoString → StatResult) (p : GoString) (fuel : Nat)
    (res : Except Halt GoString) (h : findNextName stat fuel p = some res) :
    ∃ k, k < fuel ∧ (∀ j, j < k → stat (candidate p j) = .found) ∧
      ((res = .ok (candidate p k) ∧ stat (candidate p k) = .notExist) ∨
       (res = .error (Halt.stat (candidate p k)) ∧ stat (candidate p k) = .failed)) := by
  rw [findNextName_eq_loop] at h
  obtain ⟨k, -, hk2, hk3, hk4⟩ := loop_exit stat p fuel 0 res h
  exact ⟨k, by omega, fun j hj => hk3 j (Nat.zero_le j) hj, hk4⟩

/-- C13: when `findNextName` returns a path, that path is the first of the candidates
`p`, `base2ext`, `base3ext`, ... that does not exist: it does not exist, every candidate
before it exists, and it is `p` itself when `p` does not exist. -/
theorem findNextName_returns_first_free (stat : GoString → StatResult) (fuel : Nat)
    (p r : GoString) (h : findNextName stat fuel p = some (.ok r)) :
    ∃ k, k < fuel ∧ r = candidate p k ∧ stat r = .notExist ∧
      (∀ j, j < k → stat (candidate p j) = .found) ∧
      (stat p = .notExist → r = p) := by
  obtain ⟨k, hk, hfound, hres⟩ := findNextName_exit stat p fuel _ h
  rcases hres with ⟨hr, hfree⟩ | ⟨hr, -⟩
  · have hrk : r = candidate p k := Except.ok.inj hr
    refine ⟨k, hk, hrk, hrk ▸ hfree, hfound, ?_⟩
    intro hp
    cases k with
    | zero => exact hrk
    | succ k =>
      have := hfound 0 (by omega)
      rw [candidate_zero, hp] at this
      cases this
  · cases hr

/-- The path `out/a.mp3` when `out/a.mp3` and `out/a2.mp3` exist: the result is
`out/a3.mp3`. -/
theorem findNextName_returns_first_free_witness :
    ∃ k, k < 5 ∧ "out/a3.mp3".toList = candidate "out/a.mp3".toList k ∧
      statOf ["out/a.mp3".toList, "out/a2.mp3".toList] "out/a3.mp3".toList = .notExist ∧
      (∀ j, j < k → statOf ["out/a.mp3".toList, "out/a2.mp3".toList]
        (candidate "out/a.mp3".toList j) = .found) ∧
      (statOf ["out/a.mp3".toList, "out/a2.mp3".toList] "out/a.mp3".toList = .notExist →
        "out/a3.mp3".toList = "out/a.mp3".toList) :=
  findNextName_returns_first_free (statOf ["out/a.mp3".toList, "out/a2.mp3".toList]) 5
    "out/a.mp3".toList "out/a3.mp3".toList rfl

/-- C20: when the first `k` candidates exist and the next one does not, `findNextName`
returns that one after `k + 1` calls of `os.Stat`: `k` iterations are not enough,
`k + 1` or more give the result.  The loop ends in no other way than on a path that
does not exist, which it returns, or on a failed `os.Stat`, which ends the run. -/
theorem findNextName_terminates (stat : GoString → StatResult) (p : GoString) (k : Nat)
    (hfound : ∀ j, j < k → stat (candidate p j) = .found)
    (hfree : stat (candidate p k) = .notExist) :
    findNextName stat (k + 1) p = some (.ok (candidate p k)) ∧
    (∀ fuel, fuel ≤ k → findNextName stat fuel p = none) ∧
    (∀ fuel, k < fuel → findNextName stat fuel p = some (.ok (candidate p k))) ∧
    (∀ (other : GoString → StatResult) (fuel : Nat) (res : Except Halt GoString),
      findNextName other fuel p = some res →
      ∃ n, n < fuel ∧ (∀ j, j < n → other (candidate p j) = .found) ∧
        ((res = .ok (candidate p n) ∧ other (candidate p n) = .notExist) ∨
         (res = .error (Halt.stat (candidate p n)) ∧ other (candidate p n) = .failed))) :=
  ⟨findNextName_first_free stat p k (k + 1) hfound hfree (Nat.lt_succ_self k),
    fun fuel hf => findNextName_none stat p k fuel hfound hf,
    fun fuel hf => findNextName_first_free stat p k fuel hfound hfree hf,
    fun other fuel res h => findNextName_exit other p fuel res h⟩

/-- The path `a.mp3` when `a.mp3` and `a2.mp3` exist: three calls of `os.Stat`. -/
theorem findNextName_terminates_witness :
    findNextName (statOf ["a.mp3".toList, "a2.mp3".toList]) (2 + 1) "a.mp3".toList
      = some (.ok (candidate "a.mp3".toList 2)) ∧
    (∀ fuel, fuel ≤ 2 →
      findNextName (statOf ["a.mp3".toList, "a2.mp3".toList]) fuel "a.mp3".toList = none) ∧
    (∀ fuel, 2 < fuel →
      findNextName (statOf ["a.mp3".toList, "a2.mp3".toList]) fuel "a.mp3".toList
        = some (.ok (candidate "a.mp3".toList 2))) ∧
    (∀ (other : GoString → StatResult) (fuel : Nat) (res : Except Halt GoString),
      findNextName other fuel "a.mp3".toList = some res →
      ∃ n, n < fuel ∧ (∀ j, j < n → other (candidate "a.mp3".toList j) = .found) ∧
        ((res = .ok (candidate "a.mp3".toList n) ∧
            other (candidate "a.mp3".toList n) = .notExist) ∨
         (res = .error (Halt.stat (candidate "a.mp3".toList n)) ∧
            other (candidate "a.mp3".toList n) = .failed))) :=
  findNextName_terminates (statOf ["a.mp3".toList, "a2.mp3".toList]) "a.mp3".toList 2
    (fun j hj => by
      have h2 : j = 0 ∨ j = 1 := by omega
      rcases h2 with rfl | rfl <;> rfl)
    rfl

theorem created_same (p : GoString) (stat : GoString → StatResult) :
    created p stat p = .found := by
  simp [created]

theorem created_other (p q : GoString) (stat : GoString → StatResult) (h : q ≠ p) :
    created p stat q = stat q := by
  simp [created, h]

theorem resolveRepeatedly_from (p : GoString) (fuel n : Nat) :
    ∀ (m : Nat) (stat : GoString → StatResult),
      (∀ k, k < m → stat (candidate p k) = .found) →
      (∀ k, m ≤ k → k < m + n → stat (candidate p k) = .notExist) →
      m + n ≤ fuel →
      resolveRepeatedly fuel p n stat
        = some ((List.range n).map (fun i => candidate p (m + i))) := by
  induction n with
  | zero => intro m stat _ _ _; rfl
  | succ n ih =>
    intro m stat hfound hfree hfuel
    have hfirst := findNextName_first_free stat p m fuel hfound (hfree m (le_refl m) (by omega))
      (by omega)
    rw [resolveRepeatedly]
    simp only [hfirst]
    rw [ih (m + 1) (created (candidate p m) stat) ?_ ?_ (by omega)]
    · simp only [Option.map_some', List.range_succ_eq_map, List.map_cons, List.map_map,
        Nat.add_zero]
      congr 2
      apply List.map_congr_left
      intro i _
      simp only [Function.comp]
      congr 1
      omega
    · intro k hk
      by_cases hkm : k = m
      · rw [hkm]; exact created_same _ _
      · rw [created_other _ _ _ (fun e => hkm (candidate_injective p k m e))]
        exact hfound k (by omega)
    · intro k hk1 hk2
      rw [created_other _ _ _ (fun e => by
        have := candidate_injective p k m e
        omega)]
      exact hfree k (by omega) (by omega)

theorem nodup_candidates (p : GoString) (n : Nat) :
    ((List.range n).map (candidate p)).Nodup :=
  (List.nodup_range n).map (fun a b h => candidate_injective p a b h)

theorem foldl_created_not_mem (qs : List GoString) :
    ∀ (stat : GoString → StatResult) (q : GoString), q ∉ qs →
      (qs.foldl (fun st r => created r st) stat) q = stat q := by
  induction qs with
  | nil => intro stat q _; rfl
  | cons r qs ih =>
    intro stat q hq
    rw [List.foldl_cons, ih _ q (fun h => hq (List.mem_cons_of_mem _ h)),
      created_other _ _ _ (fun e => hq (by simp [e]))]

/-- When none of the first `N` candidates of a path exists, resolving the path `N` times,
the returned file being created every time, returns the candidates in order. -/
theorem resolveRepeatedly_candidates (N : Nat) (p : GoString) (stat : GoString → StatResult)
    (hN : 1 ≤ N) (hfree : ∀ k, k < N → stat (candidate p k) = .notExist) :
    resolveRepeatedly N p N stat = some ((List.range N).map (candidate p)) ∧
    ((List.range N).map (candidate p)).Nodup ∧
    ((List.range N).map (candidate p)).head? = some p ∧
    (∀ i, i < N →
      (((List.range i).map (candidate p)).foldl (fun st r => created r st) stat)
        (candidate p i) = .notExist) := by
  refine ⟨?_, nodup_candidates p N, ?_, ?_⟩
  · have := resolveRepeatedly_from p N N 0 stat (fun k hk => by omega)
      (fun k _ hk => hfree k (by omega)) (by omega)
    simpa using this
  · obtain ⟨n, rfl⟩ : ∃ n, N = n + 1 := ⟨N - 1, by omega⟩
    simp [List.range_succ_eq_map, candidate_zero]
  · intro i hi
    rw [foldl_created_not_mem _ stat _ ?_]
    · exact hfree i hi
    · intro hmem
      rw [List.mem_map] at hmem
      obtain ⟨j, hj, hji⟩ := hmem
      have := candidate_injective p j i hji
      rw [List.mem_range] at hj
      omega

theorem Ext_scan_skip (xs : GoString) :
    ∀ (acc rest : GoString), (∀ c ∈ xs, c ≠ '.' ∧ c ≠ '/') →
      Ext.scan (xs ++ rest) acc = Ext.scan rest (xs.reverse ++ acc) := by
  induction xs with
  | nil => intro acc rest _; rfl
  | cons c cs ih =>
    intro acc rest h
    have hc := h c (by simp)
    rw [List.cons_append, Ext.scan]
    simp only [hc.1, hc.2, if_false]
    rw [ih (c :: acc) rest (fun x hx => h x (by simp [hx]))]
    simp

/-- The extension of a path that ends in a dot followed by characters other than dots
and separators is that dot and those characters. -/
theorem Ext_of_dot (name e : GoString) (hdot : '.' ∉ e) (hsep : '/' ∉ e) :
    Ext (name ++ '.' :: e) = '.' :: e := by
  have hrev : (name ++ '.' :: e).reverse = e.reverse ++ '.' :: name.reverse := by simp
  rw [Ext, hrev, Ext_scan_skip e.reverse [] _ (fun c hc => by
    have hc2 : c ∈ e := List.mem_reverse.1 hc
    exact ⟨fun h => hdot (h ▸ hc2), fun h => hsep (h ▸ hc2)⟩)]
  simp [Ext.scan]

theorem Ext_scan_no_dot (rev : GoString) :
    ∀ acc : GoString, '/' ∉ acc →
      (∀ pre e, rev.reverse ++ acc = pre ++ '.' :: e → '/' ∈ e) → Ext.scan rev acc = [] := by
  induction rev with
  | nil => intro acc _ _; rfl
  | cons c rev ih =>
    intro acc hacc h
    rw [Ext.scan]
    by_cases hs : c = '/'
    · simp [hs]
    · simp only [hs, if_false]
      by_cases hd : c = '.'
      · exfalso
        exact hacc (h rev.reverse acc (by simp [hd]))
      · simp only [hd, if_false]
        apply ih (c :: acc)
        · intro hmem
          rcases List.mem_cons.1 hmem with e | e
          · exact hs e.symm
          · exact hacc e
        · intro pre e he
          exact h pre e (by rw [← he]; simp)

/-- The extension of a path is empty when every dot of the path is followed, further
on, by a separator: the last element of the path has no dot. -/
theorem Ext_of_no_dot (p : GoString) (h : ∀ pre e, p = pre ++ '.' :: e → '/' ∈ e) :
    Ext p = [] :=
  Ext_scan_no_dot p.reverse [] (by simp) (fun pre e he => h pre e (by simpa using he))

theorem Ext_scan_shape (rev : GoString) :
    ∀ acc : GoString, '.' ∉ acc → '/' ∉ acc →
      (Ext.scan rev acc = [] ∧ ∀ pre e, rev.reverse ++ acc = pre ++ '.' :: e → '/' ∈ e) ∨
      (∃ pre e, rev.reverse ++ acc = pre ++ '.' :: e ∧ Ext.scan rev acc = '.' :: e ∧
        '.' ∉ e ∧ '/' ∉ e) := by
  induction rev with
  | nil =>
    intro acc hd hs
    left
    refine ⟨rfl, fun pre e he => ?_⟩
    exfalso
    apply hd
    have : '.' ∈ pre ++ '.' :: e := by simp
    rw [← he] at this
    simpa using this
  | cons c rev ih =>
    intro acc hd hs
    rw [Ext.scan]
    by_cases hcs : c = '/'
    · left
      refine ⟨by simp [hcs], fun pre e he => ?_⟩
      have he2 : rev.reverse ++ '/' :: acc = pre ++ '.' :: e := by rw [← he, hcs]; simp
      by_contra hne
      have hlen : ∀ (a b x y : GoString), a ++ '/' :: b = x ++ '.' :: y → '/' ∉ y →
          '.' ∉ b → False := by
        intro a b x y hxy hy hb
        rcases List.append_eq_append_iff.1 hxy with ⟨m, h1, h2⟩ | ⟨m, h1, h2⟩
        · cases m with
          | nil => simp at h2
          | cons z zs =>
            simp only [List.cons_append, List.cons.injEq] at h2
            apply hb
            rw [h2.2]
            simp
        · cases m with
          | nil => simp at h2
          | cons z zs =>
            simp only [List.cons_append, List.cons.injEq] at h2
            apply hy
            rw [h2.2]
            simp
      exact hlen _ _ _ _ he2 hne hd
    · by_cases hcd : c = '.'
      · right
        exact ⟨rev.reverse, acc, by simp [hcd], by simp [hcs, hcd], hd, hs⟩
      · simp only [hcs, hcd, if_false]
        have hd2 : '.' ∉ c :: acc := by
          intro hmem
          rcases List.mem_cons.1 hmem with e | e
          · exact hcd e.symm
          · exact hd e
        have hs2 : '/' ∉ c :: acc := by
          intro hmem
          rcases List.mem_cons.1 hmem with e | e
          · exact hcs e.symm
          · exact hs e
        have heq : (c :: rev).reverse ++ acc = rev.reverse ++ (c :: acc) := by simp
        rw [heq]
        exact ih (c :: acc) hd2 hs2

/-- Every path is a name followed by its extension, which is empty, the last element of
the path having no dot, or is a dot followed by characters other than dots and
separators. -/
theorem exists_name_ext (p : GoString) :
    ∃ name ext, p = name ++ ext ∧ Ext p = ext ∧
      ((ext = [] ∧ ∀ pre e, name = pre ++ '.' :: e → '/' ∈ e) ∨
       (∃ e, ext = '.' :: e ∧ '.' ∉ e ∧ '/' ∉ e)) := by
  have h := Ext_scan_shape p.reverse [] (by simp) (by simp)
  simp only [List.reverse_reverse, List.append_nil] at h
  rcases h with ⟨h1, h2⟩ | ⟨pre, e, h1, h2, h3, h4⟩
  · exact ⟨p, [], by simp, h1, Or.inl ⟨rfl, h2⟩⟩
  · exact ⟨pre, '.' :: e, h1, h2, Or.inr ⟨e, rfl, h3, h4⟩⟩

theorem Ext_name_ext (name ext : GoString)
    (hext : (ext = [] ∧ ∀ pre e, name = pre ++ '.' :: e → '/' ∈ e) ∨
      (∃ e, ext = '.' :: e ∧ '.' ∉ e ∧ '/' ∉ e)) :
    Ext (name ++ ext) = ext := by
  rcases hext with ⟨h1, h2⟩ | ⟨e, h1, h2, h3⟩
  · rw [h1, List.append_nil]
    exact Ext_of_no_dot name h2
  · rw [h1]
    exact Ext_of_dot name e h2 h3

theorem candidate_name_ext (name ext : GoString)
    (hext : (ext = [] ∧ ∀ pre e, name = pre ++ '.' :: e → '/' ∈ e) ∨
      (∃ e, ext = '.' :: e ∧ '.' ∉ e ∧ '/' ∉ e)) :
    candidate (name ++ ext)
      = fun k => if k = 0 then name ++ ext else name ++ FormatInt (k + 1) ++ ext := by
  funext k
  unfold candidate
  rw [Ext_name_ext name ext hext, TrimSuffix_append]

/-- C14: let the path be `name ++ ext`, where `ext` is its extension: empty, the last
element of the path having no dot, or a dot followed by characters other than dots and
separators.  When none of `name ++ ext`, `name2ext`, ..., `nameNext` exists, resolving
the path `N` times, the returned file being created every time, returns these `N` paths
in this order; they are pairwise distinct, and each does not exist when it is
returned. -/
theorem resolveRepeatedly_sequence (N : Nat) (name ext : GoString)
    (stat : GoString → StatResult) (hN : 1 ≤ N)
    (hext : (ext = [] ∧ ∀ pre e, name = pre ++ '.' :: e → '/' ∈ e) ∨
      (∃ e, ext = '.' :: e ∧ '.' ∉ e ∧ '/' ∉ e))
    (hfree : ∀ k, k < N →
      stat (if k = 0 then name ++ ext else name ++ FormatInt (k + 1) ++ ext) = .notExist) :
    resolveRepeatedly N (name ++ ext) N stat
      = some ((List.range N).map
          (fun k => if k = 0 then name ++ ext else name ++ FormatInt (k + 1) ++ ext)) ∧
    ((List.range N).map
      (fun k => if k = 0 then name ++ ext else name ++ FormatInt (k + 1) ++ ext)).Nodup ∧
    ((List.range N).map
      (fun k => if k = 0 then name ++ ext else name ++ FormatInt (k + 1) ++ ext)).head?
        = some (name ++ ext) ∧
    (∀ i, i < N →
      (((List.range i).map
          (fun k => if k = 0 then name ++ ext else name ++ FormatInt (k + 1) ++ ext)).foldl
        (fun st r => created r st) stat)
        (if i = 0 then name ++ ext else name ++ FormatInt (i + 1) ++ ext) = .notExist) := by
  have hc := candidate_name_ext name ext hext
  have hfree2 : ∀ k, k < N → stat (candidate (name ++ ext) k) = .notExist := by
    intro k hk
    rw [hc]
    exact hfree k hk
  have h := resolveRepeatedly_candidates N (name ++ ext) stat hN hfree2
  rw [hc] at h
  exact h

/-- The path `out/a.mp3` resolved eleven times in an empty directory. -/
theorem resolveRepeatedly_sequence_witness :
    resolveRepeatedly 11 "out/a.mp3".toList 11 (statOf [])
      = some ["out/a.mp3".toList, "out/a2.mp3".toList, "out/a3.mp3".toList,
          "out/a4.mp3".toList, "out/a5.mp3".toList, "out/a6.mp3".toList,
          "out/a7.mp3".toList, "out/a8.mp3".toList, "out/a9.mp3".toList,
          "out/a10.mp3".toList, "out/a11.mp3".toList] ∧
    ["out/a.mp3".toList, "out/a2.mp3".toList, "out/a3.mp3".toList,
      "out/a4.mp3".toList, "out/a5.mp3".toList, "out/a6.mp3".toList,
      "out/a7.mp3".toList, "out/a8.mp3".toList, "out/a9.mp3".toList,
      "out/a10.mp3".toList, "out/a11.mp3".toList].Nodup ∧
    ["out/a.mp3".toList, "out/a2.mp3".toList, "out/a3.mp3".toList,
      "out/a4.mp3".toList, "out/a5.mp3".toList, "out/a6.mp3".toList,
      "out/a7.mp3".toList, "out/a8.mp3".toList, "out/a9.mp3".toList,
      "out/a10.mp3".toList, "out/a11.mp3".toList].head? = some "out/a.mp3".toList ∧
    (∀ i, i < 11 →
      (((List.range i).map
          (fun k => if k = 0 then "out/a".toList ++ ".mp3".toList
            else "out/a".toList ++ FormatInt (k + 1) ++ ".mp3".toList)).foldl
        (fun st r => created r st) (statOf []))
        (if i = 0 then "out/a".toList ++ ".mp3".toList
          else "out/a".toList ++ FormatInt (i + 1) ++ ".mp3".toList) = .notExist) :=
  resolveRepeatedly_sequence 11 "out/a".toList ".mp3".toList (statOf []) (by decide)
    (Or.inr ⟨"mp3".toList, rfl, by decide, by decide⟩) (fun _ _ => rfl)

/-! ## The commands `main` sends -/

theorem main_submit_append {sem : Float64Sem} (args : List GoString) (clips : List (clip sem)) :
    ∀ sent : List (command sem), main.submit args clips sent
      = sent ++ clips.map (fun c =>
          { Input := args.getD 2 []
            Clip := { Start := c.Start, End := c.End,
                      Name := Join [clipsDir args, sanitizeName c.Name] } }) := by
  induction clips with
  | nil => intro sent; simp [main.submit]
  | cons c clips ih =>
    intro sent
    rw [main.submit, ih]
    simp

/-- C15: for the labels `..`, the empty label and `.`, the output directory being `out`
and no file existing, the clip is written to `..mp3`, `out.mp3` and `out.mp3`, none of
which is inside `out`; the label `intro` is written to `out/intro.mp3`. -/
theorem convert_output_outside_directory :
    (main.submit ["audioclipper".toList, "out.txt".toList, "in.wav".toList]
        [({ Start := RefFloat.fin 0, End := RefFloat.fin 1, Name := "..".toList } :
            clip Float64Sem.ref),
          { Start := RefFloat.fin 0, End := RefFloat.fin 1, Name := "".toList },
          { Start := RefFloat.fin 0, End := RefFloat.fin 1, Name := ".".toList },
          { Start := RefFloat.fin 0, End := RefFloat.fin 1, Name := "intro".toList }] []).map
      (fun job => convert (statOf []) 1 job.Input job.Clip)
    = [some (.ok "..mp3".toList), some (.ok "out.mp3".toList), some (.ok "out.mp3".toList),
        some (.ok "out/intro.mp3".toList)] := rfl

/-- C16: the manifest `h`, `0,1,a`, `2,3,a` with the output directory `out` and two
workers.  `main` never calls `findNextName`: the two commands it sends carry the same
name `out/a`.  Each worker resolves the output path by itself, in `convert`; with both
commands handed over and neither clip written yet, both workers resolve to
`out/a.mp3`: two dispatched jobs with the same output path. -/
theorem main_dispatches_same_path :
    parseClipFile Float64Sem.ref (some "h\n0,1,a\n2,3,a".toList)
      = some (.ok [{ Start := RefFloat.fin 0, End := RefFloat.fin 1, Name := "a".toList },
          { Start := RefFloat.fin 2, End := RefFloat.fin 3, Name := "a".toList }]) ∧
    (main.submit ["audioclipper".toList, "out.txt".toList, "in.wav".toList]
        [({ Start := RefFloat.fin 0, End := RefFloat.fin 1, Name := "a".toList } :
            clip Float64Sem.ref),
          { Start := RefFloat.fin 2, End := RefFloat.fin 3, Name := "a".toList }] []).map
      (fun job => job.Clip.Name) = ["out/a".toList, "out/a".toList] ∧
    ((Pool.start 2
        (main.submit ["audioclipper".toList, "out.txt".toList, "in.wav".toList]
          [({ Start := RefFloat.fin 0, End := RefFloat.fin 1, Name := "a".toList } :
              clip Float64Sem.ref),
            { Start := RefFloat.fin 2, End := RefFloat.fin 3, Name := "a".toList }] [])).run
        [Event.handoff 0, Event.handoff 1]).map
      (fun p => (p.queue.length, p.completed.length,
        p.workers.map (fun w => w.map (fun job => convert (statOf []) 1 job.Input job.Clip))))
    = some (0, 0, [some (some (.ok "out/a.mp3".toList)), some (some (.ok "out/a.mp3".toList))]) :=
  ⟨rfl, rfl, rfl⟩

/-- C17: with one worker and the manifest `header`, `0,10,intro`, the worker receives the
command, `main` closes the channel and returns, and the program has ended while the
worker is still converting: no conversion is complete. -/
theorem main_returns_before_worker :
    ((Pool.start 1
        (main.submit ["audioclipper".toList, "out.txt".toList, "in.wav".toList]
          [({ Start := RefFloat.fin 0, End := RefFloat.fin 10, Name := "intro".toList } :
              clip Float64Sem.ref)] [])).run [Event.handoff 0, Event.mainReturns]).map
      (fun p => (p.exited, p.queue.length, p.completed.length,
        p.workers.map (fun w => w.map (fun job => job.Clip.Name))))
    = some (true, 0, 0, [some "out/intro".toList]) := rfl

/-- C18: `main` sends one command per clip, in the order of the clips; every command
holds the second argument as its input, and the clip with its start and end as they
were and, as its name, the output directory joined with the sanitized label. -/
theorem main_submit_jobs {sem : Float64Sem} (args : List GoString) (clips : List (clip sem)) :
    main.submit args clips [] = clips.map (fun c =>
        { Input := args.getD 2 []
          Clip := { Start := c.Start, End := c.End,
                    Name := Join [TrimSuffix (args.getD 1 []) ".txt".toList,
                      sanitizeName c.Name] } }) ∧
    (main.submit args clips []).length = clips.length ∧
    (∀ i : Nat, (main.submit args clips [])[i]? = (clips[i]?).map (fun c =>
        { Input := args.getD 2 []
          Clip := { Start := c.Start, End := c.End,
                    Name := Join [TrimSuffix (args.getD 1 []) ".txt".toList,
                      sanitizeName c.Name] } })) := by
  have h := main_submit_append args clips []
  rw [List.nil_append] at h
  refine ⟨h, ?_, ?_⟩
  · rw [h, List.length_map]
  · intro i
    rw [h, List.getElem?_map]
    rfl

/-! ## The output directory and the manifest -/

theorem find_filter_of_imp {α : Type} (f g : α → Bool) (l : List α)
    (h : ∀ x, f x = true → g x = true) : (l.filter g).find? f = l.find? f := by
  induction l with
  | nil => rfl
  | cons a l ih =>
    by_cases hg : g a = true
    · rw [List.filter_cons_of_pos hg, List.find?_cons, List.find?_cons, ih]
    · have hf : f a = false := by
        cases hfa : f a with
        | false => rfl
        | true => exact absurd (h a hfa) hg
      rw [List.filter_cons_of_neg hg, List.find?_cons, hf, ih]

theorem isPrefixOf_self (l : List GoString) : l.isPrefixOf l = true := by
  induction l with
  | nil => rfl
  | cons a l ih => simp [List.isPrefixOf, ih]

theorem ref_frame : FileSys.ref.Frame where
  stat_file := by
    intro st p c hrd
    have hrd2 : (if p = [] then none else (RefFS.lookup st p).join) = some c := hrd
    show (if p = [] then StatResult.notExist
      else if (RefFS.lookup st p).isSome then .found else .notExist) = .found
    split_ifs at hrd2 with hp
    simp only [hp, if_false]
    cases hl : RefFS.lookup st p with
    | none => rw [hl] at hrd2; cases hrd2
    | some v => rfl
  removeAll_gone := by
    intro st st2 d hrm
    have hst2 : st2 = st.filter (fun e => !(RefFS.place d).isPrefixOf e.1) :=
      (Option.some.inj hrm).symm
    show (if d = [] then StatResult.notExist
      else if (RefFS.lookup st2 d).isSome then .found else .notExist) = .notExist
    have hnone : RefFS.lookup st2 d = none := by
      rw [hst2, RefFS.lookup]
      have hf : (st.filter (fun e => !(RefFS.place d).isPrefixOf e.1)).find?
          (fun e => e.1 = RefFS.place d) = none := by
        rw [List.find?_eq_none]
        intro x hx hxe
        have hx2 := (List.mem_filter.1 hx).2
        have hxe2 : x.1 = RefFS.place d := by simpa using hxe
        rw [hxe2, isPrefixOf_self] at hx2
        simp at hx2
      rw [hf]
      rfl
    simp [hnone]
  removeAll := by
    intro st st2 d p hrm hin
    have hst2 : st2 = st.filter (fun e => !(RefFS.place d).isPrefixOf e.1) :=
      (Option.some.inj hrm).symm
    have hin2 : (RefFS.place d).isPrefixOf (RefFS.place p) = false := hin
    show (if p = [] then none else (RefFS.lookup st2 p).join)
      = (if p = [] then none else (RefFS.lookup st p).join)
    rw [hst2, RefFS.lookup, RefFS.lookup, find_filter_of_imp]
    intro x hx
    have hx2 : x.1 = RefFS.place p := by simpa using hx
    simp [hx2, hin2]
  mkdir := by
    intro st st2 d p c hmk hrd
    have hrd1 : (if p = [] then none else (RefFS.lookup st p).join) = some c := hrd
    have hmk2 : (if d = [] ∨ (RefFS.lookup st d).isSome = true then none
        else some ((RefFS.place d, none) :: st)) = some st2 := hmk
    show (if p = [] then none else (RefFS.lookup st2 p).join) = some c
    split_ifs at hrd1 with hp
    have hrd2 : (RefFS.lookup st p).join = some c := hrd1
    simp only [hp, if_false]
    split_ifs at hmk2 with hcond
    have hst2 := (Option.some.inj hmk2).symm
    have hne : ¬ RefFS.place d = RefFS.place p := by
      intro e
      apply hcond
      right
      have hp : (RefFS.lookup st p).isSome = true := by
        cases hl : RefFS.lookup st p with
        | none => rw [hl] at hrd2; cases hrd2
        | some v => rfl
      simpa [RefFS.lookup, e] using hp
    rw [hst2, RefFS.lookup, List.find?_cons]
    simp only [hne, decide_False]
    exact hrd2
  mkdir_dir := by
    intro st st2 d hmk
    have hmk2 : (if d = [] ∨ (RefFS.lookup st d).isSome = true then none
        else some ((RefFS.place d, none) :: st)) = some st2 := hmk
    show (if d = [] then none else (RefFS.lookup st2 d).join) = none
    split_ifs at hmk2 with hcond
    have hst2 := (Option.some.inj hmk2).symm
    rw [hst2, RefFS.lookup, List.find?_cons]
    simp

theorem unlinkIfExists_loop_stat (os : FileSys) (dir : GoString) (fuel : Nat) :
    ∀ (st st2 : os.State) (removed : Bool),
      unlinkIfExists.loop os fuel st dir removed = some (.ok st2) →
      os.Stat st2 dir = .notExist := by
  induction fuel with
  | zero => intro st st2 removed h; simp [unlinkIfExists.loop] at h
  | succ fuel ih =>
    intro st st2 removed h
    rw [unlinkIfExists.loop] at h
    cases hs : os.Stat st dir with
    | failed => simp [hs] at h
    | notExist =>
      simp only [hs, Option.some.injEq, Except.ok.injEq] at h
      rw [← h]; exact hs
    | found =>
      simp only [hs] at h
      cases removed with
      | true => exact ih _ _ _ (by simpa using h)
      | false =>
        simp only [Bool.not_false, if_true] at h
        cases hr : os.RemoveAll st dir with
        | none => simp [hr] at h
        | some st1 =>
          simp only [hr] at h
          exact ih _ _ _ h

theorem unlinkIfExists_loop_frame (os : FileSys) (hos : os.Frame) (dir p : GoString)
    (fuel : Nat) :
    ∀ (st st2 : os.State) (removed : Bool),
      unlinkIfExists.loop os fuel st dir removed = some (.ok st2) →
      (removed = false → os.Inside st dir p = false) →
      os.ReadFile st2 p = os.ReadFile st p := by
  induction fuel with
  | zero => intro st st2 removed h; simp [unlinkIfExists.loop] at h
  | succ fuel ih =>
    intro st st2 removed h hin
    rw [unlinkIfExists.loop] at h
    cases hs : os.Stat st dir with
    | failed => simp [hs] at h
    | notExist =>
      simp only [hs, Option.some.injEq, Except.ok.injEq] at h
      rw [← h]
    | found =>
      simp only [hs] at h
      cases removed with
      | true => exact ih _ _ true (by simpa using h) (fun e => by cases e)
      | false =>
        simp only [Bool.not_false, if_true] at h
        cases hr : os.RemoveAll st dir with
        | none => simp [hr] at h
        | some st1 =>
          simp only [hr] at h
          rw [ih st1 st2 true h (fun e => by cases e)]
          exact hos.removeAll st st1 dir p hr (hin rfl)

theorem TrimSuffix_of_not_HasSuffix (s suffix : GoString) (h : HasSuffix s suffix = false) :
    TrimSuffix s suffix = s := by
  simp [TrimSuffix, h]

theorem TrimSuffix_of_HasSuffix (s suffix : GoString) (h : HasSuffix s suffix = true) :
    TrimSuffix s suffix ++ suffix = s ∧
      (TrimSuffix s suffix).length + suffix.length = s.length := by
  have h2 : suffix.length ≤ s.length ∧ s.drop (s.length - suffix.length) = suffix := by
    simpa [HasSuffix] using h
  have h3 : TrimSuffix s suffix = s.take (s.length - suffix.length) := by
    simp [TrimSuffix, h]
  rw [h3]
  refine ⟨?_, ?_⟩
  · have h4 := List.take_append_drop (s.length - suffix.length) s
    rw [h2.2] at h4
    exact h4
  · rw [List.length_take]
    omega

/-- The function `unlinkIfExists` returns, after one or two calls of `os.Stat`: at once
when the directory does not exist, and after the removal when it exists and
`os.RemoveAll` removes it. -/
theorem unlinkIfExists_returns (os : FileSys) (hos : os.Frame) (fuel : Nat)
    (st st1 : os.State) (dir : GoString) (hfuel : 2 ≤ fuel)
    (hremove : (os.Stat st dir = .notExist ∧ st1 = st) ∨
      (os.Stat st dir = .found ∧ os.RemoveAll st dir = some st1)) :
    unlinkIfExists os fuel st dir = some (.ok st1) := by
  obtain ⟨n, rfl⟩ : ∃ n, fuel = n + 2 := ⟨fuel - 2, by omega⟩
  unfold unlinkIfExists
  rw [unlinkIfExists.loop]
  rcases hremove with ⟨hs, he⟩ | ⟨hs, hr⟩
  · simp only [hs, he]
  · simp only [hs, hr, Bool.not_false, if_true]
    rw [unlinkIfExists.loop]
    simp only [hos.removeAll_gone st st1 dir hr]

theorem main_setup_returns (os : FileSys) (fuel : Nat) (st st1 st2 : os.State)
    (args : List GoString) (hargs : 3 ≤ args.length)
    (hun : unlinkIfExists os fuel st (clipsDir args) = some (.ok st1))
    (hmk : os.Mkdir st1 (clipsDir args) = some st2) :
    main.setup os fuel st args = some (.ok st2) := by
  unfold main.setup
  rw [if_neg (by omega)]
  simp only [hun, hmk]

/-- The manifest `dir/.txt`: its name ends in `.txt`, the output directory is `dir/`,
and once `main` has removed and made that directory the manifest is gone. -/
theorem main_setup_manifest_counterexample :
    HasSuffix "dir/.txt".toList ".txt".toList = true ∧
    clipsDir ["audioclipper".toList, "dir/.txt".toList, "in.wav".toList] = "dir/".toList ∧
    FileSys.ref.ReadFile
        [(["dir".toList], none), (["dir".toList, ".txt".toList], some "h\n0,1,a".toList)]
        "dir/.txt".toList = some "h\n0,1,a".toList ∧
    main.setup FileSys.ref 2
        [(["dir".toList], none), (["dir".toList, ".txt".toList], some "h\n0,1,a".toList)]
        ["audioclipper".toList, "dir/.txt".toList, "in.wav".toList]
      = some (.ok [(["dir".toList], none)]) ∧
    FileSys.ref.ReadFile [(["dir".toList], none)] "dir/.txt".toList = none :=
  ⟨rfl, rfl, rfl, rfl, rfl⟩

/-- C19 (amended): let `main` have its arguments, the manifest be a file, and the calls
of package `os` on the output directory succeed: the directory does not exist, or it
exists and `os.RemoveAll` removes it, and `os.Mkdir` makes it.  Then `main` reaches
`parseClipFile`.  When the manifest path does not end in `.txt`, the output directory
name is the manifest path, `unlinkIfExists` has removed the manifest, and the manifest
is not a file any more when `parseClipFile` opens it.  When the path ends in `.txt`, the
output directory name is the path without `.txt`, it differs from the manifest path,
and the manifest is as it was unless it lies inside the output directory. -/
theorem main_setup_manifest (os : FileSys) (hos : os.Frame) (fuel : Nat)
    (st st1 st2 : os.State) (args : List GoString) (c : GoString)
    (hargs : 3 ≤ args.length) (hfuel : 2 ≤ fuel)
    (hfile : os.ReadFile st (args.getD 1 []) = some c)
    (hremove : (os.Stat st (clipsDir args) = .notExist ∧ st1 = st) ∨
      (os.Stat st (clipsDir args) = .found ∧ os.RemoveAll st (clipsDir args) = some st1))
    (hmkdir : os.Mkdir st1 (clipsDir args) = some st2) :
    main.setup os fuel st args = some (.ok st2) ∧
    unlinkIfExists os fuel st (clipsDir args) = some (.ok st1) ∧
    (HasSuffix (args.getD 1 []) ".txt".toList = false →
      clipsDir args = args.getD 1 [] ∧
      os.RemoveAll st (args.getD 1 []) = some st1 ∧
      os.Stat st1 (args.getD 1 []) = .notExist ∧
      os.ReadFile st1 (args.getD 1 []) = none ∧
      os.ReadFile st2 (args.getD 1 []) = none) ∧
    (HasSuffix (args.getD 1 []) ".txt".toList = true →
      clipsDir args ++ ".txt".toList = args.getD 1 [] ∧
      clipsDir args ≠ args.getD 1 [] ∧
      (os.Inside st (clipsDir args) (args.getD 1 []) = false →
        os.ReadFile st2 (args.getD 1 []) = some c)) := by
  have hun := unlinkIfExists_returns os hos fuel st st1 (clipsDir args) hfuel hremove
  refine ⟨main_setup_returns os fuel st st1 st2 args hargs hun hmkdir, hun, ?_, ?_⟩
  · intro hsuf
    have hdir : clipsDir args = args.getD 1 [] := TrimSuffix_of_not_HasSuffix _ _ hsuf
    rw [hdir] at hremove hmkdir
    have hfound := hos.stat_file st _ c hfile
    rcases hremove with ⟨hs, _⟩ | ⟨_, hr⟩
    · rw [hfound] at hs
      cases hs
    · have hgone := hos.removeAll_gone st st1 _ hr
      refine ⟨hdir, hr, hgone, ?_, hos.mkdir_dir st1 st2 _ hmkdir⟩
      cases hrd : os.ReadFile st1 (args.getD 1 []) with
      | none => rfl
      | some c1 =>
        have h2 := hos.stat_file st1 _ c1 hrd
        rw [hgone] at h2
        cases h2
  · intro hsuf
    obtain ⟨happ, hlen⟩ := TrimSuffix_of_HasSuffix _ _ hsuf
    refine ⟨happ, ?_, ?_⟩
    · intro e
      have e2 : (clipsDir args).length = (args.getD 1 []).length := by rw [e]
      have e3 : (TrimSuffix (args.getD 1 []) ".txt".toList).length
          = (args.getD 1 []).length := e2
      have e4 : (".txt".toList).length = 4 := rfl
      omega
    · intro hin
      have h1 := unlinkIfExists_loop_frame os hos (clipsDir args) (args.getD 1 []) fuel st st1
        false hun (fun _ => hin)
      exact hos.mkdir st1 st2 _ _ c hmkdir (by rw [h1]; exact hfile)

/-- Two runs in the reference file system.  The manifest `clips`, whose name does not
end in `.txt`: `main` removes the manifest and makes a directory `clips` in its place.
The manifest `clips.txt` next to an output directory `clips` left by an earlier run: the
directory is emptied and the manifest is as it was. -/
theorem main_setup_manifest_witness :
    (FileSys.ref.ReadFile [(["clips".toList], some "h\n0,1,a".toList)] "clips".toList
        = some "h\n0,1,a".toList ∧
      HasSuffix "clips".toList ".txt".toList = false ∧
      main.setup FileSys.ref 2 [(["clips".toList], some "h\n0,1,a".toList)]
          ["audioclipper".toList, "clips".toList, "in.wav".toList]
        = some (.ok [(["clips".toList], none)]) ∧
      clipsDir ["audioclipper".toList, "clips".toList, "in.wav".toList] = "clips".toList ∧
      FileSys.ref.RemoveAll [(["clips".toList], some "h\n0,1,a".toList)] "clips".toList
        = some [] ∧
      FileSys.ref.Stat [] "clips".toList = .notExist ∧
      FileSys.ref.ReadFile [] "clips".toList = none ∧
      FileSys.ref.ReadFile [(["clips".toList], none)] "clips".toList = none) ∧
    (HasSuffix "clips.txt".toList ".txt".toList = true ∧
      main.setup FileSys.ref 2
          [(["clips".toList], none), (["clips".toList, "old.mp3".toList], some "x".toList),
            (["clips.txt".toList], some "h\n0,1,a".toList)]
          ["audioclipper".toList, "clips.txt".toList, "in.wav".toList]
        = some (.ok [(["clips".toList], none),
            (["clips.txt".toList], some "h\n0,1,a".toList)]) ∧
      clipsDir ["audioclipper".toList, "clips.txt".toList, "in.wav".toList] ++ ".txt".toList
        = "clips.txt".toList ∧
      clipsDir ["audioclipper".toList, "clips.txt".toList, "in.wav".toList]
        ≠ "clips.txt".toList ∧
      FileSys.ref.ReadFile
        [(["clips".toList], none), (["clips.txt".toList], some "h\n0,1,a".toList)]
        "clips.txt".toList = some "h\n0,1,a".toList) :=
  ⟨have h := main_setup_manifest FileSys.ref ref_frame 2
      [(["clips".toList], some "h\n0,1,a".toList)] [] [(["clips".toList], none)]
      ["audioclipper".toList, "clips".toList, "in.wav".toList] "h\n0,1,a".toList
      (by decide) (by decide) rfl (Or.inr ⟨rfl, rfl⟩) rfl;
    ⟨rfl, rfl, h.1, h.2.2.1 rfl⟩,
   have h := main_setup_manifest FileSys.ref ref_frame 2
      [(["clips".toList], none), (["clips".toList, "old.mp3".toList], some "x".toList),
        (["clips.txt".toList], some "h\n0,1,a".toList)]
      [(["clips.txt".toList], some "h\n0,1,a".toList)]
      [(["clips".toList], none), (["clips.txt".toList], some "h\n0,1,a".toList)]
      ["audioclipper".toList, "clips.txt".toList, "in.wav".toList] "h\n0,1,a".toList
      (by decide) (by decide) rfl (Or.inr ⟨rfl, rfl⟩) rfl;
    ⟨rfl, h.1, (h.2.2.2 rfl).1, (h.2.2.2 rfl).2.1, (h.2.2.2 rfl).2.2 rfl⟩⟩

/-! ## Labels that stay inside the output directory -/

theorem Split_ne_nil (sep : Char) (s : GoString) : Split sep s ≠ [] := by
  cases s with
  | nil => simp [Split]
  | cons c cs =>
    unfold Split
    by_cases h : c = sep
    · simp [h]
    · simp only [h, if_false]
      cases Split sep cs <;> simp

theorem Split_of_not_mem (sep : Char) (s : GoString) (h : sep ∉ s) : Split sep s = [s] := by
  induction s with
  | nil => rfl
  | cons c cs ih =>
    have hc : ¬ c = sep := fun e => h (by simp [e])
    have hcs : sep ∉ cs := fun e => h (by simp [e])
    rw [Split, ih hcs]
    simp [hc]

theorem Split_append_sep (sep : Char) (n : GoString) (hn : sep ∉ n) (d : GoString) :
    Split sep (d ++ sep :: n) = Split sep d ++ [n] := by
  induction d with
  | nil => simp [Split, Split_of_not_mem sep n hn]
  | cons c cs ih =>
    rw [List.cons_append, Split, Split, ih]
    by_cases h : c = sep
    · simp [h]
    · simp only [h, if_false]
      cases hs : Split sep cs with
      | nil => exact absurd hs (Split_ne_nil sep cs)
      | cons e es => simp

theorem Clean_elems_cons (rooted : Bool) (e : GoString) (es out : List GoString) :
    Clean.elems rooted (e :: es) out =
      if e = [] ∨ e = ['.'] then Clean.elems rooted es out
      else if e = ['.', '.'] then
        match out with
        | top :: rest =>
          if top = ['.', '.'] then Clean.elems rooted es (e :: out)
          else Clean.elems rooted es rest
        | [] => if rooted then Clean.elems rooted es [] else Clean.elems rooted es [e]
      else Clean.elems rooted es (e :: out) := by
  conv_lhs => unfold Clean.elems

theorem Clean_elems_append (rooted : Bool) (n : GoString) (h0 : n ≠ []) (h1 : n ≠ ['.'])
    (h2 : n ≠ ['.', '.']) (es : List GoString) :
    ∀ out : List GoString, Clean.elems rooted (es ++ [n]) out = Clean.elems rooted es out ++ [n] := by
  induction es with
  | nil =>
    intro out
    simp [Clean.elems, h0, h1, h2]
  | cons e es ih =>
    intro out
    rw [List.cons_append, Clean_elems_cons rooted e (es ++ [n]) out,
      Clean_elems_cons rooted e es out]
    by_cases hskip : e = [] ∨ e = ['.']
    · simp only [hskip, if_true, ih]
    · simp only [hskip, if_false]
      by_cases hup : e = ['.', '.']
      · simp only [hup, if_true]
        cases out with
        | nil => cases rooted <;> simp [ih]
        | cons top rest =>
          by_cases htop : top = ['.', '.']
          · simp only [htop, if_true, ih]
          · simp only [htop, if_false, ih]
      · simp only [hup, if_false, ih]

theorem intercalate_append_singleton (sep n : GoString) (xs : List GoString) (h : xs ≠ []) :
    List.intercalate sep (xs ++ [n]) = List.intercalate sep xs ++ sep ++ n := by
  induction xs with
  | nil => exact absurd rfl h
  | cons a xs ih =>
    cases xs with
    | nil => simp [List.intercalate, List.intersperse]
    | cons b xs =>
      have := ih (by simp)
      simp only [List.intercalate, List.cons_append, List.intersperse, List.flatten_cons,
        List.append_assoc, List.append_eq] at this ⊢
      rw [this]

/-- When the output directory `d` is not empty and does not clean to `.` or `/`, and the
name `n` is not empty, not `.`, not `..` and holds no `/`, joining them gives the cleaned
directory, a separator and the name. -/
theorem Join_plain (d n : GoString) (hd : d ≠ []) (hdot : Clean d ≠ ['.'])
    (hroot : Clean d ≠ ['/']) (h0 : n ≠ []) (h1 : n ≠ ['.']) (h2 : n ≠ ['.', '.'])
    (hsep : '/' ∉ n) : Join [d, n] = Clean d ++ '/' :: n := by
  have hjoin : Join [d, n] = Clean (d ++ '/' :: n) := by
    simp [Join, hd, List.intercalate, List.intersperse]
  have hhead : (d ++ '/' :: n).head? = d.head? := by
    cases d with
    | nil => exact absurd rfl hd
    | cons c cs => rfl
  have hxs : Clean.elems (decide (d.head? = some '/')) (Split '/' d) [] ≠ [] := by
    intro hnil
    unfold Clean at hdot hroot
    simp only [hd, if_false, hnil, List.intercalate, List.intersperse, List.flatten_nil] at hdot hroot
    by_cases hr : d.head? = some '/'
    · simp [hr] at hroot
    · simp [hr] at hdot
  rw [hjoin]
  unfold Clean
  have hne : d ++ '/' :: n ≠ [] := by simp
  simp only [hne, hd, if_false, hhead, Split_append_sep '/' n hsep d,
    Clean_elems_append _ n h0 h1 h2, intercalate_append_singleton _ _ _ hxs]
  by_cases hr : d.head? = some '/'
  · simp [hr]
  · have hbody : List.intercalate ['/'] (Clean.elems false (Split '/' d) []) ≠ [] := by
      intro hb
      apply hdot
      unfold Clean
      simp [hd, hr, hb]
    simp [hr, hbody]

theorem sanitizeName_no_separator (s : GoString) : '/' ∉ sanitizeName s := by
  intro h
  have := filenameSanitizer_sanitizeName s '/' h
  exact absurd this (by decide)

/-- For a label whose sanitized name is not empty, not `.` and not `..`, and an output
directory that is not empty and does not clean to `.` or `/`, the clip is written, when
that path does not exist, to the cleaned directory name, a separator, the sanitized
name and `.mp3`. -/
theorem convert_output_inside_directory {sem : Float64Sem} (args : List GoString)
    (c : clip sem) (stat : GoString → StatResult) (hd : clipsDir args ≠ [])
    (hdot : Clean (clipsDir args) ≠ ['.']) (hroot : Clean (clipsDir args) ≠ ['/'])
    (h0 : sanitizeName c.Name ≠ []) (h1 : sanitizeName c.Name ≠ ['.'])
    (h2 : sanitizeName c.Name ≠ ['.', '.'])
    (hfree : stat (Clean (clipsDir args) ++ '/' :: sanitizeName c.Name ++ ".mp3".toList)
      = .notExist) :
    (main.submit args [c] []).map (fun job => convert stat 1 job.Input job.Clip)
      = [some (.ok (Clean (clipsDir args) ++ '/' :: sanitizeName c.Name ++ ".mp3".toList))] := by
  rw [main_submit_append]
  simp only [List.nil_append, List.map_cons, List.map_nil, convert]
  rw [Join_plain _ _ hd hdot hroot h0 h1 h2 (sanitizeName_no_separator c.Name)]
  rw [findNextName_first_free stat _ 0 1 (fun j hj => by omega) (by rw [candidate_zero]; exact hfree)
    (by omega), candidate_zero]

end Audioclipper
